import Mathlib

/-!
# Biostrings `src/BitMatrix.c`: bit-sliced matrices

A shallow embedding of the routines of `BitMatrix.c` and a verification of
their documented properties.

## Modelling conventions

* `BitWord` is C's `unsigned long`.  Its width `NBIT_PER_BITWORD` is defined in
  `Biostrings.h`; it is the parameter `W` of every routine that uses it.  Words
  are natural numbers below `2 ^ W`; the two operations that could leave that
  range (`<<` and `~`) are reduced explicitly.
* C `int` values (`nbit`, `nrow`, `ncol`, `nword`, indices, the `bit` argument)
  are `Int`; `div()` is truncating division (`Int.tdiv`, `Int.tmod`).  An `int` is
  32 bits wide.  The word count `nword = nword_per_col * ncol` of `_new_BitMatrix` is
  the one `int` product that can leave the range of `int` on positive sizes; it
  is reduced to 32 bits (`wrapInt`), so that the buffer allocated for a matrix of
  more than `INT_MAX` words is too short for the fill that follows and the
  constructor does not return.  The index products `j * nword_per_col` stay in
  range for every matrix the constructor returns (`new_BitMatrix_index_in_int`).
* A pointer into a word buffer is a buffer together with an offset.  A `BitCol`
  holds the buffer its `words` pointer points into (`buf`) and the offset of
  that pointer (`words`); a column extracted from a matrix has the matrix
  buffer as `buf`.  A `BitMatrix` owns its buffer, so its `words` is the buffer.
* Two values with equal words need not be the same memory.  `_BitMatrix_grow1rows` reads
  its column while it writes its matrix, so its embedding `_BitMatrix_grow1rows_at`
  takes a flag `shared` that tells whether the words of the column are words of
  the matrix buffer.  When they are, each `bitcol->words[i1]` is read from the
  buffer as the earlier writes of the routine left it.  `_BitMatrix_grow1rows` is the
  call with a column that has its words elsewhere.  `ColumnPlacement` names the two
  kinds of column the routines of the file produce: a column with a buffer of
  its own (`_new_BitCol`) and a column of the matrix (`_BitMatrix_get_col`);
  `grow1rows_overlap` shows the routine on a column of neither kind.
* `error(...)` does not return: routines return `Except Fault _`.  An access
  outside the buffer, or a shift by an amount outside `[0, W)`, is undefined in
  C and is reported as `Fault.outOfRange`.
* A routine that does not return leaves the memory as it is at that point.
  `grow1rowsMem` is `_BitMatrix_grow1rows` with the buffer threaded through a
  failure, to state what the buffer holds when the routine raises.
-/

namespace BitMatrixC

/-! ## The embedding of `BitMatrix.c` and the functions used to state its properties -/

/-- The C type `BitWord` (`unsigned long`). -/
abbrev BitWord := Nat

/-- Ways in which a routine can fail to return. -/
inductive Fault where
  /-- The calls `error("_new_BitCol(): nbit <= 0")` and
  `error("_new_BitMatrix(): nrow <= 0 || ncol <= 0")`. -/
  | invalidArgument
  /-- The call `error("_BitMatrix_grow1rows(): bitmat and bitcol are incompatible")`. -/
  | incompatible
  /-- Undefined behaviour in C: an access outside the word buffer or a shift
  by an amount outside `[0, W)`. -/
  | outOfRange
  deriving DecidableEq

instance instDecidableEqExcept {ε α : Type} [DecidableEq ε] [DecidableEq α] :
    DecidableEq (Except ε α)
  | .ok a, .ok b => if h : a = b then isTrue (by rw [h]) else isFalse (by intro h'; cases h'; exact h rfl)
  | .error a, .error b => if h : a = b then isTrue (by rw [h]) else isFalse (by intro h'; cases h'; exact h rfl)
  | .ok _, .error _ => isFalse (by intro h; cases h)
  | .error _, .ok _ => isFalse (by intro h; cases h)

/-- The struct `BitCol`: `words` is a pointer into the buffer `buf`, given by its offset. -/
structure BitCol where
  buf : List BitWord
  words : Int
  nword : Int
  nbit : Int
  deriving DecidableEq

/-- The struct `BitMatrix`; `words` points to the start of the buffer the matrix owns. -/
structure BitMatrix where
  words : List BitWord
  nword_per_col : Int
  nrow : Int
  ncol : Int
  deriving DecidableEq

/-- Read `*(buf + k)`. -/
def load (buf : List BitWord) (k : Int) : Except Fault BitWord :=
  if 0 ≤ k then
    match buf[k.toNat]? with
    | some w => .ok w
    | none => .error .outOfRange
  else .error .outOfRange

/-- Write `*(buf + k) = w`. -/
def store (buf : List BitWord) (k : Int) (w : BitWord) : Except Fault (List BitWord) :=
  if 0 ≤ k ∧ k.toNat < buf.length then .ok (buf.set k.toNat w) else .error .outOfRange

/-- The expression `1UL << s`. -/
def shl1 (W : Nat) (s : Int) : Except Fault BitWord :=
  if 0 ≤ s ∧ s < W then .ok ((1 <<< s.toNat) % 2 ^ W) else .error .outOfRange

/-- The expression `(w >> s) & 1UL`. -/
def shrAnd1 (W : Nat) (w : BitWord) (s : Int) : Except Fault Nat :=
  if 0 ≤ s ∧ s < W then .ok ((w >>> s.toNat) &&& 1) else .error .outOfRange

/-- The expression `~w` on a `W`-bit word. -/
def bnot (W : Nat) (w : BitWord) : BitWord := 2 ^ W - 1 - w % 2 ^ W

/-- `Salloc(n, BitWord)`: `n` zeroed words. -/
def Salloc (n : Int) : List BitWord := List.replicate n.toNat 0

/-- The number of words `q.quot` after `q = div(n, NBIT_PER_BITWORD); if (q.rem != 0) q.quot++;`. -/
def nwordFor (W : Nat) (n : Int) : Int :=
  if Int.tmod n W ≠ 0 then Int.tdiv n W + 1 else Int.tdiv n W

/-- The loop `for (i1 = 0, word = ...; i1 < quot; i1++, word++) *word = val;`
with `n` iterations left and `word` the current pointer. -/
def setValLoop (val : BitWord) : Nat → Int → List BitWord → Except Fault (List BitWord)
  | 0, _, buf => .ok buf
  | n + 1, word, buf => do
    let buf' ← store buf word val
    setValLoop val n (word + 1) buf'

def _BitCol_set_val (W : Nat) (bitcol : BitCol) (val : BitWord) : Except Fault BitCol := do
  let quot := nwordFor W bitcol.nbit
  let buf' ← setValLoop val quot.toNat bitcol.words bitcol.buf
  pure { bitcol with buf := buf' }

def _new_BitCol (W : Nat) (nbit : Int) (val : BitWord) : Except Fault BitCol :=
  if nbit ≤ 0 then .error .invalidArgument
  else
    let nword := nwordFor W nbit
    _BitCol_set_val W { buf := Salloc nword, words := 0, nword := nword, nbit := nbit } val

def _BitCol_get_bit (W : Nat) (bitcol : BitCol) (i : Int) : Except Fault Nat := do
  let quot := Int.tdiv i W
  let rem := Int.tmod i W
  let word ← load bitcol.buf (bitcol.words + quot)
  shrAnd1 W word rem

def _BitCol_set_bit (W : Nat) (bitcol : BitCol) (i : Int) (bit : Int) : Except Fault BitCol := do
  let quot := Int.tdiv i W
  let rem := Int.tmod i W
  let word := bitcol.words + quot
  let mask ← shl1 W rem
  let old ← load bitcol.buf word
  let buf' ← store bitcol.buf word (if bit ≠ 0 then old ||| mask else old &&& bnot W mask)
  pure { bitcol with buf := buf' }

/-- The 0-copy column extraction: the column points into the matrix buffer. -/
def _BitMatrix_get_col (bitmat : BitMatrix) (j : Int) : BitCol :=
  { buf := bitmat.words
    words := j * bitmat.nword_per_col
    nword := bitmat.nword_per_col
    nbit := bitmat.nrow }

/-- The outer loop of `_BitMatrix_set_val` with `n` columns left and `word0`
the pointer to the current column. -/
def setValCols (val : BitWord) (quot : Nat) (nword_per_col : Int) :
    Nat → Int → List BitWord → Except Fault (List BitWord)
  | 0, _, buf => .ok buf
  | n + 1, word0, buf => do
    let buf' ← setValLoop val quot word0 buf
    setValCols val quot nword_per_col n (word0 + nword_per_col) buf'

def _BitMatrix_set_val (W : Nat) (bitmat : BitMatrix) (val : BitWord) : Except Fault BitMatrix := do
  let quot := nwordFor W bitmat.nrow
  let buf' ← setValCols val quot.toNat bitmat.nword_per_col bitmat.ncol.toNat 0 bitmat.words
  pure { bitmat with words := buf' }

/-- The largest value of a C `int` (32 bits), `INT_MAX` of `limits.h`. -/
def INT_MAX : Int := 2147483647

/-- The `int` that an `int` expression of mathematical value `x` evaluates to: `x`
reduced to 32 bits in two's complement. -/
def wrapInt (x : Int) : Int := (x + 2147483648) % 4294967296 - 2147483648

def _new_BitMatrix (W : Nat) (nrow ncol : Int) (val : BitWord) : Except Fault BitMatrix :=
  if nrow ≤ 0 ∨ ncol ≤ 0 then .error .invalidArgument
  else
    let nword_per_col := nwordFor W nrow
    let nword := wrapInt (nword_per_col * ncol)
    _BitMatrix_set_val W
      { words := Salloc nword, nword_per_col := nword_per_col, nrow := nrow, ncol := ncol } val

def _BitMatrix_get_bit (W : Nat) (bitmat : BitMatrix) (i j : Int) : Except Fault Nat := do
  let quot := Int.tdiv i W
  let rem := Int.tmod i W
  let word ← load bitmat.words (j * bitmat.nword_per_col + quot)
  shrAnd1 W word rem

def _BitMatrix_set_bit (W : Nat) (bitmat : BitMatrix) (i j : Int) (bit : Int) :
    Except Fault BitMatrix := do
  let quot := Int.tdiv i W
  let rem := Int.tmod i W
  let word := j * bitmat.nword_per_col + quot
  let mask ← shl1 W rem
  let old ← load bitmat.words word
  let buf' ← store bitmat.words word (if bit ≠ 0 then old ||| mask else old &&& bnot W mask)
  pure { bitmat with words := buf' }

/-- The inner loop of `_BitMatrix_grow1rows` with `n` columns left, `Lword` the
current pointer into the matrix and `Rword` the current carry word. -/
def grow1rowsCols (nword_per_col : Int) :
    Nat → Int → BitWord → List BitWord → Except Fault (List BitWord)
  | 0, _, _, buf => .ok buf
  | n + 1, Lword, Rword, buf => do
    let old ← load buf Lword
    let ret := old &&& Rword
    let buf' ← store buf Lword (old ||| Rword)
    grow1rowsCols nword_per_col n (Lword + nword_per_col) ret buf'

/-- The outer loop of `_BitMatrix_grow1rows` with `n` word slots left, starting at slot `i1`.
The flag `shared` tells where the words of the column are: when it is set they
are words of the matrix buffer, and `bitcol->words[i1]` is read from that buffer
as it is when slot `i1` is reached, after the writes of the earlier slots;
otherwise they are in the buffer of the column, which the routine does not write. -/
def grow1rowsSlots (nword_per_col : Int) (ncol : Nat) (shared : Bool) (bitcol : BitCol) :
    Nat → Int → List BitWord → Except Fault (List BitWord)
  | 0, _, buf => .ok buf
  | n + 1, i1, buf => do
    let Rword ← load (if shared then buf else bitcol.buf) (bitcol.words + i1)
    let buf' ← grow1rowsCols nword_per_col ncol i1 Rword buf
    grow1rowsSlots nword_per_col ncol shared bitcol n (i1 + 1) buf'

/-- The routine `_BitMatrix_grow1rows`.  A matrix and a column are two values, which do
not tell whether the words of the column are part of the matrix buffer; the
flag `shared` tells it.  With `shared` set, `bitcol.words` is an offset into the
matrix buffer and the column is read from the buffer the routine is writing. -/
def _BitMatrix_grow1rows_at (shared : Bool) (bitmat : BitMatrix) (bitcol : BitCol) :
    Except Fault BitMatrix :=
  if bitmat.nrow ≠ bitcol.nbit then .error .incompatible
  else do
    let buf' ← grow1rowsSlots bitmat.nword_per_col bitmat.ncol.toNat shared bitcol
      bitmat.nword_per_col.toNat 0 bitmat.words
    pure { bitmat with words := buf' }

/-- The routine `_BitMatrix_grow1rows` called with a column whose words are not part of
the matrix buffer (a column with a buffer of its own, or a column of another matrix). -/
def _BitMatrix_grow1rows (bitmat : BitMatrix) (bitcol : BitCol) : Except Fault BitMatrix :=
  _BitMatrix_grow1rows_at false bitmat bitcol

/-- The integer of row `i` restricted to its first `n` columns: bit `j` of the
integer is the bit stored in column `j`, as accumulated by the loop
`for (j = 0, cbit = 1; j < ncol; j++, cbit <<= 1) if (*word & rbit) elts[i] += cbit;`
of `BitMatrix_tr`. -/
def rowBits (W : Nat) (bitmat : BitMatrix) (i : Int) : Nat → Except Fault Nat
  | 0 => .ok 0
  | n + 1 => do
    let lo ← rowBits W bitmat i n
    let b ← _BitMatrix_get_bit W bitmat i n
    pure (lo + b * 2 ^ n)

/-- The integer of row `i`. -/
def rowInt (W : Nat) (bitmat : BitMatrix) (i : Int) : Except Fault Nat :=
  rowBits W bitmat i bitmat.ncol.toNat

/-- Apply `_BitMatrix_grow1rows` with the column `bitcol` `n` times in a row. -/
def growTimes (bitcol : BitCol) : Nat → BitMatrix → Except Fault BitMatrix
  | 0, bitmat => .ok bitmat
  | n + 1, bitmat => do
    let bitmat' ← _BitMatrix_grow1rows bitmat bitcol
    growTimes bitcol n bitmat'

/-- The word at offset `k` of a buffer (`0` outside of it). -/
def wordAt (buf : List BitWord) (k : Nat) : BitWord := buf.getD k 0

/-- The number of `W`-bit words needed for `n` bits. -/
def nwordNat (W n : Nat) : Nat := if n % W ≠ 0 then n / W + 1 else n / W

/-- A column is valid when its `words` pointer addresses `ceil(nbit / W)` words of its buffer. -/
def BitCol.Valid (W : Nat) (c : BitCol) : Prop :=
  0 ≤ c.words ∧ c.words + nwordFor W c.nbit ≤ (c.buf.length : Int)

instance (W : Nat) (c : BitCol) : Decidable (c.Valid W) := by
  unfold BitCol.Valid; infer_instance

/-- The shape invariant of a matrix: positive sizes, `nword_per_col = ceil(nrow / W)`
and a buffer of `ncol * nword_per_col` words. -/
def BitMatrix.WF (W : Nat) (m : BitMatrix) : Prop :=
  0 < m.nrow ∧ 0 < m.ncol ∧ m.nword_per_col = nwordFor W m.nrow ∧
    (m.words.length : Int) = m.ncol * m.nword_per_col

instance (W : Nat) (m : BitMatrix) : Decidable (m.WF W) := by
  unfold BitMatrix.WF; infer_instance

/-- Bit `r` of a word, as `0` or `1`. -/
def bitOf (w : BitWord) (r : Nat) : Nat := (w.testBit r).toNat

/-- The word written by `_BitCol_set_bit` and `_BitMatrix_set_bit`. -/
def setBitWord (W : Nat) (old : BitWord) (r : Nat) (bit : Int) : BitWord :=
  if bit ≠ 0 then old ||| 2 ^ r else old &&& bnot W (2 ^ r)

/-- The carry word entering column `t` of word slot `a`: `R` for column 0, then
the previous carry and-ed with the previous column. -/
def carryWord (buf : List BitWord) (p a : Nat) (R : BitWord) : Nat → BitWord
  | 0 => R
  | t + 1 => wordAt buf (a + t * p) &&& carryWord buf p a R t

/-- Bit `(i, j)` of a matrix: bit `i mod W` of word `i div W` of column `j`. -/
def mbit (W : Nat) (m : BitMatrix) (i j : Nat) : Bool :=
  (wordAt m.words (i / W + j * m.nword_per_col.toNat)).testBit (i % W)

/-- Bit `i` of a column. -/
def cbit (W : Nat) (c : BitCol) (i : Nat) : Bool :=
  (wordAt c.buf (c.words.toNat + i / W)).testBit (i % W)

/-- All of `f 0`, ..., `f (j - 1)` hold. -/
def allBelow (f : Nat → Bool) : Nat → Bool
  | 0 => true
  | t + 1 => f t && allBelow f t

/-- The integer whose bit `j` is `f j`, for `j < n`. -/
def ofBits (f : Nat → Bool) : Nat → Nat
  | 0 => 0
  | n + 1 => ofBits f n + (f n).toNat * 2 ^ n

/-- The effect of one `_BitMatrix_grow1rows` on the integer of a selected row of `k` columns. -/
def growNat (k r : Nat) : Nat := (r ||| (r + 1)) % 2 ^ k

/-- The integer of row `i` computed from the bits of the matrix. -/
def rowNat (W : Nat) (m : BitMatrix) (i : Nat) : Nat := ofBits (mbit W m i) m.ncol.toNat

/-- A one-row matrix of two columns (a 2-bit counter) with row integer 1. -/
def counter2_one : BitMatrix := { words := [1, 0], nword_per_col := 1, nrow := 1, ncol := 2 }

/-- A one-row matrix of two columns (a 2-bit counter) with row integer 3. -/
def counter2_three : BitMatrix := { words := [1, 1], nword_per_col := 1, nrow := 1, ncol := 2 }

/-- A 1-bit column whose bit 0 is set. -/
def col1_set : BitCol := { buf := [1], words := 0, nword := 1, nbit := 1 }

/-- A two-row matrix of three columns with row integers 5 and 3. -/
def rows2_5_3 : BitMatrix := { words := [3, 2, 1], nword_per_col := 1, nrow := 2, ncol := 3 }

/-- A 2-bit column with bit 0 set and bit 1 clear. -/
def col2_first : BitCol := { buf := [1], words := 0, nword := 1, nbit := 2 }

/-- The inner loop of `_BitMatrix_grow1rows` with the buffer kept when the loop
stops on a failure: the buffer at the point where the loop ends and the
failure, if any. -/
def grow1rowsColsMem (nword_per_col : Int) :
    Nat → Int → BitWord → List BitWord → List BitWord × Option Fault
  | 0, _, _, buf => (buf, none)
  | n + 1, Lword, Rword, buf =>
    match load buf Lword with
    | .error e => (buf, some e)
    | .ok old =>
      match store buf Lword (old ||| Rword) with
      | .error e => (buf, some e)
      | .ok buf' =>
        grow1rowsColsMem nword_per_col n (Lword + nword_per_col) (old &&& Rword) buf'

/-- The outer loop of `_BitMatrix_grow1rows` with the buffer kept when the loop
stops on a failure. -/
def grow1rowsSlotsMem (nword_per_col : Int) (ncol : Nat) (bitcol : BitCol) :
    Nat → Int → List BitWord → List BitWord × Option Fault
  | 0, _, buf => (buf, none)
  | n + 1, i1, buf =>
    match load bitcol.buf (bitcol.words + i1) with
    | .error e => (buf, some e)
    | .ok Rword =>
      match grow1rowsColsMem nword_per_col ncol i1 Rword buf with
      | (buf', some e) => (buf', some e)
      | (buf', none) => grow1rowsSlotsMem nword_per_col ncol bitcol n (i1 + 1) buf'

/-- The routine `_BitMatrix_grow1rows` as a transformation of the matrix buffer
that also tells the contents of the buffer when the routine does not return:
the buffer at the point where the routine ends and the failure, if any. -/
def grow1rowsMem (bitmat : BitMatrix) (bitcol : BitCol) : List BitWord × Option Fault :=
  if bitmat.nrow ≠ bitcol.nbit then (bitmat.words, some .incompatible)
  else
    grow1rowsSlotsMem bitmat.nword_per_col bitmat.ncol.toNat bitcol
      bitmat.nword_per_col.toNat 0 bitmat.words

/-- The result of a routine from the final buffer and the failure, if any. -/
def ofMem (r : List BitWord × Option Fault) : Except Fault (List BitWord) :=
  match r.2 with
  | none => .ok r.1
  | some e => .error e

/-- The shape invariant of a column that owns its buffer: positive length,
`nword = ceil(nbit / W)`, a buffer of `nword` words, and `words` pointing to its start. -/
def BitCol.WF (W : Nat) (c : BitCol) : Prop :=
  0 < c.nbit ∧ c.nword = nwordFor W c.nbit ∧ (c.buf.length : Int) = c.nword ∧ c.words = 0

instance (W : Nat) (c : BitCol) : Decidable (c.WF W) := by
  unfold BitCol.WF; infer_instance

/-- The matrix `rows2_5_3` with other padding bits (the bits of rows 2, 3, ... of each word). -/
def rows2_5_3_pad : BitMatrix := { words := [7, 10, 17], nword_per_col := 1, nrow := 2, ncol := 3 }

/-- The column `col2_first` with other padding bits. -/
def col2_first_pad : BitCol := { buf := [5], words := 0, nword := 1, nbit := 2 }

/-- The loop of the column-by-column fill given in the comment above `_BitMatrix_set_val`,
`for (j = 0; j < bitmat->ncol; j++) { bitcol = _BitMatrix_get_col(bitmat, j);
_BitCol_set_val(&bitcol, val); }`, with `n` columns left.  The column points into the
matrix buffer, so the buffer of the column after its fill is the matrix buffer. -/
def setValByCol (W : Nat) (val : BitWord) : Nat → Int → BitMatrix → Except Fault BitMatrix
  | 0, _, bitmat => .ok bitmat
  | n + 1, j, bitmat => do
    let bitcol ← _BitCol_set_val W (_BitMatrix_get_col bitmat j) val
    setValByCol W val n (j + 1) { bitmat with words := bitcol.buf }

/-- The column-by-column implementation of `_BitMatrix_set_val` of that comment. -/
def _BitMatrix_set_val_by_col (W : Nat) (bitmat : BitMatrix) (val : BitWord) :
    Except Fault BitMatrix :=
  setValByCol W val bitmat.ncol.toNat 0 bitmat

/-- Where a column given to `_BitMatrix_grow1rows` has its words: in a buffer other than the
matrix buffer (`shared = false`), or in the matrix buffer as one of the columns of
the matrix, the column that `_BitMatrix_get_col` returns (`shared = true`). -/
def ColumnPlacement (shared : Bool) (m : BitMatrix) (c : BitCol) : Prop :=
  shared = true → ∃ j : Int, 0 ≤ j ∧ j < m.ncol ∧ c = _BitMatrix_get_col m j

/-- A matrix of 70 rows and 2 columns, two words per column. -/
def overlapMat : BitMatrix := { words := [1, 1, 0, 0], nword_per_col := 2, nrow := 70, ncol := 2 }

/-- A column of 70 bits whose words are the words 1 and 2 of the buffer of `overlapMat`: it
starts in the middle of column 0 and is not a column of the matrix. -/
def overlapCol : BitCol := { buf := [1, 1, 0, 0], words := 1, nword := 2, nbit := 70 }

/-! ## Memory and word primitives -/

theorem load_natCast (buf : List BitWord) (k : Nat) (h : k < buf.length) :
    load buf (k : Int) = .ok (wordAt buf k) := by
  simp [load, wordAt, List.getElem?_eq_getElem h]

theorem store_natCast (buf : List BitWord) (k : Nat) (w : BitWord) (h : k < buf.length) :
    store buf (k : Int) w = .ok (buf.set k w) := by
  simp [store, h]

theorem wordAt_set (buf : List BitWord) (k k' : Nat) (w : BitWord) :
    wordAt (buf.set k w) k' = if k = k' ∧ k < buf.length then w else wordAt buf k' := by
  unfold wordAt
  simp only [List.getD_eq_getElem?_getD, List.getElem?_set]
  by_cases h : k = k'
  · subst h
    by_cases h2 : k < buf.length
    · simp [h2]
    · simp [h2, List.getElem?_eq_none (Nat.le_of_not_lt h2)]
  · simp [h]

theorem shrAnd1_natCast (W : Nat) (w : BitWord) (r : Nat) (h : r < W) :
    shrAnd1 W w (r : Int) = .ok (w.testBit r).toNat := by
  have h' : (r : Int) < (W : Int) := by exact_mod_cast h
  simp [shrAnd1, h', Nat.toNat_testBit, Nat.and_one_is_mod, Nat.shiftRight_eq_div_pow]

theorem shl1_natCast (W : Nat) (r : Nat) (h : r < W) :
    shl1 W (r : Int) = .ok (2 ^ r) := by
  have h' : (r : Int) < (W : Int) := by exact_mod_cast h
  have h2 : 2 ^ r < 2 ^ W := Nat.pow_lt_pow_right (by decide) h
  simp [shl1, h', Nat.one_shiftLeft, Nat.mod_eq_of_lt h2]

theorem tdiv_natCast (n W : Nat) : Int.tdiv (n : Int) (W : Int) = ((n / W : Nat) : Int) :=
  (Int.ofNat_tdiv n W).symm

theorem tmod_natCast (n W : Nat) : Int.tmod (n : Int) (W : Int) = ((n % W : Nat) : Int) :=
  (Int.ofNat_tmod n W).symm

theorem nwordFor_natCast (W n : Nat) : nwordFor W (n : Int) = (nwordNat W n : Int) := by
  unfold nwordFor nwordNat
  rw [tdiv_natCast, tmod_natCast]
  by_cases h : n % W = 0
  · have h' : ¬ ((n % W : Nat) : Int) ≠ 0 := by simp [h]
    rw [if_neg h', if_neg (by simpa using h)]
  · have h' : ((n % W : Nat) : Int) ≠ 0 := by exact_mod_cast h
    rw [if_pos h', if_pos h]
    push_cast
    rfl

theorem div_lt_nwordNat (W n i : Nat) (hW : 0 < W) (h : i < n) : i / W < nwordNat W n := by
  unfold nwordNat
  have h1 : i / W ≤ n / W := Nat.div_le_div_right (Nat.le_of_lt h)
  by_cases hr : n % W = 0
  · simp only [hr, ne_eq, not_true_eq_false, if_false]
    rw [Nat.div_lt_iff_lt_mul hW]
    have := Nat.div_add_mod n W
    rw [hr, Nat.add_zero, Nat.mul_comm] at this
    omega
  · simp only [hr, ne_eq, not_false_eq_true, if_true]
    omega

theorem testBit_bnot (W : Nat) (w i : Nat) :
    (bnot W w).testBit i = (decide (i < W) && !w.testBit i) := by
  unfold bnot
  have h : w % 2 ^ W < 2 ^ W := Nat.mod_lt _ (Nat.pos_pow_of_pos W (by decide))
  have e : 2 ^ W - 1 - w % 2 ^ W = 2 ^ W - (w % 2 ^ W + 1) := by omega
  rw [e, Nat.testBit_two_pow_sub_succ h, Nat.testBit_mod_two_pow]
  by_cases hi : i < W <;> simp [hi]

/-! ## Well-formed columns and matrices -/

theorem bitOf_le_one (w r : Nat) : bitOf w r ≤ 1 := by
  unfold bitOf; cases w.testBit r <;> simp

theorem BitCol_get_bit_nat (W : Nat) (c : BitCol) (o n : Nat) (hW : 0 < W)
    (ho : c.words = (o : Int)) (hk : o + n / W < c.buf.length) :
    _BitCol_get_bit W c (n : Int) = .ok (bitOf (wordAt c.buf (o + n / W)) (n % W)) := by
  have e : (o : Int) + ((n / W : Nat) : Int) = ((o + n / W : Nat) : Int) := by push_cast; rfl
  simp only [_BitCol_get_bit, ho, tdiv_natCast, tmod_natCast, e, load_natCast _ _ hk,
    bind, Except.bind]
  exact shrAnd1_natCast W _ _ (Nat.mod_lt _ hW)

theorem BitCol_set_bit_nat (W : Nat) (c : BitCol) (o n : Nat) (bit : Int) (hW : 0 < W)
    (ho : c.words = (o : Int)) (hk : o + n / W < c.buf.length) :
    _BitCol_set_bit W c (n : Int) bit = .ok
      { c with buf := c.buf.set (o + n / W) (setBitWord W (wordAt c.buf (o + n / W)) (n % W) bit) } := by
  have e : (o : Int) + ((n / W : Nat) : Int) = ((o + n / W : Nat) : Int) := by push_cast; rfl
  simp only [_BitCol_set_bit, ho, tdiv_natCast, tmod_natCast, e, load_natCast _ _ hk,
    shl1_natCast W _ (Nat.mod_lt _ hW), store_natCast _ _ _ hk, bind, Except.bind]
  rfl

theorem testBit_setBitWord (W : Nat) (old r t : Nat) (bit : Int) (ht : t < W) :
    (setBitWord W old r bit).testBit t =
      if r = t then decide (bit ≠ 0) else old.testBit t := by
  unfold setBitWord
  by_cases hb : bit ≠ 0
  · rw [if_pos hb, Nat.testBit_or, Nat.testBit_two_pow]
    by_cases hr : r = t <;> simp [hr, hb]
  · rw [if_neg hb, Nat.testBit_and, testBit_bnot, Nat.testBit_two_pow]
    by_cases hr : r = t <;> simp [hr, hb, ht]

theorem BitCol.Valid.col_index_lt {W : Nat} {c : BitCol} (hc : c.Valid W) (hW : 0 < W)
    {o nb n : Nat} (ho : c.words = (o : Int)) (hnb : c.nbit = (nb : Int)) (hn : n < nb) :
    o + n / W < c.buf.length := by
  have h := hc.2
  rw [ho, hnb, nwordFor_natCast] at h
  have h1 := div_lt_nwordNat W nb n hW hn
  have h2 : o + nwordNat W nb ≤ c.buf.length := by exact_mod_cast h
  omega

theorem BitMatrix.WF.nat {W : Nat} {m : BitMatrix} (h : m.WF W) :
    ∃ nr nc : Nat, 0 < nr ∧ 0 < nc ∧ m.nrow = (nr : Int) ∧ m.ncol = (nc : Int) ∧
      m.nword_per_col = ((nwordNat W nr : Nat) : Int) ∧ m.words.length = nc * nwordNat W nr := by
  obtain ⟨h1, h2, h3, h4⟩ := h
  obtain ⟨nr, hnr⟩ := Int.eq_ofNat_of_zero_le (Int.le_of_lt h1)
  obtain ⟨nc, hnc⟩ := Int.eq_ofNat_of_zero_le (Int.le_of_lt h2)
  rw [hnr, nwordFor_natCast] at h3
  rw [hnc, h3] at h4
  refine ⟨nr, nc, ?_, ?_, hnr, hnc, h3, ?_⟩
  · rw [hnr] at h1; exact_mod_cast h1
  · rw [hnc] at h2; exact_mod_cast h2
  · exact_mod_cast h4

theorem slot_index_lt {p nc a j : Nat} (ha : a < p) (hj : j < nc) : a + j * p < nc * p := by
  have h : (j + 1) * p ≤ nc * p := Nat.mul_le_mul_right p hj
  rw [Nat.add_mul, Nat.one_mul] at h
  omega

theorem slot_index_ne {p a b j t : Nat} (ha : a < p) (hb : b < p) (hab : a ≠ b) :
    a + j * p ≠ b + t * p := by
  intro h
  have h1 : (a + j * p) % p = a := by rw [Nat.add_mul_mod_self_right, Nat.mod_eq_of_lt ha]
  have h2 : (b + t * p) % p = b := by rw [Nat.add_mul_mod_self_right, Nat.mod_eq_of_lt hb]
  rw [h, h2] at h1
  exact hab h1.symm

/-! ## The column add `_BitMatrix_grow1rows` at the level of words -/

theorem carryWord_congr (buf1 buf2 : List BitWord) (p a : Nat) (R : BitWord) :
    ∀ j : Nat, (∀ t < j, wordAt buf1 (a + t * p) = wordAt buf2 (a + t * p)) →
      carryWord buf1 p a R j = carryWord buf2 p a R j
  | 0, _ => rfl
  | j + 1, h => by
    simp only [carryWord]
    rw [h j (Nat.lt_succ_self j),
      carryWord_congr buf1 buf2 p a R j (fun t ht => h t (Nat.lt_succ_of_lt ht))]

theorem carryWord_shift (buf : List BitWord) (p a : Nat) (R w : BitWord) (hp : 0 < p) :
    ∀ s : Nat, carryWord (buf.set a w) p (a + p) (wordAt buf a &&& R) s =
      carryWord buf p a R (s + 1)
  | 0 => by simp [carryWord]
  | s + 1 => by
    have e : a + p + s * p = a + (s + 1) * p := by rw [Nat.add_mul, Nat.one_mul]; omega
    have hne : ¬ (a = a + (s + 1) * p ∧ a < buf.length) := by
      intro h
      have : 0 < (s + 1) * p := Nat.mul_pos (Nat.succ_pos s) hp
      omega
    rw [carryWord, carryWord_shift buf p a R w hp s, e, wordAt_set, if_neg hne]
    rfl

theorem grow1rowsCols_spec (p : Nat) (hp : 0 < p) :
    ∀ (n a : Nat) (R : BitWord) (buf : List BitWord),
      (∀ t < n, a + t * p < buf.length) →
      ∃ buf', grow1rowsCols (p : Int) n (a : Int) R buf = .ok buf' ∧
        buf'.length = buf.length ∧
        (∀ k, (∀ t < n, k ≠ a + t * p) → wordAt buf' k = wordAt buf k) ∧
        (∀ t < n, wordAt buf' (a + t * p) = wordAt buf (a + t * p) ||| carryWord buf p a R t) := by
  intro n
  induction n with
  | zero =>
    intro a R buf _
    exact ⟨buf, rfl, rfl, fun _ _ => rfl, fun t ht => absurd ht (Nat.not_lt_zero t)⟩
  | succ n ih =>
    intro a R buf h
    have ha : a < buf.length := by simpa using h 0 (Nat.succ_pos n)
    have e : (a : Int) + (p : Int) = ((a + p : Nat) : Int) := by push_cast; rfl
    have hb : ∀ t < n, a + p + t * p < (buf.set a (wordAt buf a ||| R)).length := by
      intro t ht
      have := h (t + 1) (Nat.succ_lt_succ ht)
      rw [Nat.add_mul, Nat.one_mul] at this
      rw [List.length_set]
      omega
    obtain ⟨buf', h1, h2, h3, h4⟩ := ih (a + p) (wordAt buf a &&& R) _ hb
    refine ⟨buf', ?_, ?_, ?_, ?_⟩
    · simp only [grow1rowsCols, load_natCast _ _ ha, store_natCast _ _ _ ha, bind, Except.bind, e]
      exact h1
    · rw [h2, List.length_set]
    · intro k hk
      have hk0 : k ≠ a := by simpa using hk 0 (Nat.succ_pos n)
      rw [h3 k, wordAt_set, if_neg (fun hh => hk0 hh.1.symm)]
      intro t ht
      have := hk (t + 1) (Nat.succ_lt_succ ht)
      rw [Nat.add_mul, Nat.one_mul] at this
      omega
    · intro t ht
      cases t with
      | zero =>
        have hfr : ∀ t < n, a ≠ a + p + t * p := by intro t _; omega
        rw [Nat.zero_mul, Nat.add_zero, h3 a hfr, wordAt_set, if_pos ⟨rfl, ha⟩]
        rfl
      | succ s =>
        have e2 : a + (s + 1) * p = a + p + s * p := by rw [Nat.add_mul, Nat.one_mul]; omega
        have hne : ¬ (a = a + p + s * p ∧ a < buf.length) := by
          intro hh
          omega
        rw [e2, h4 s (Nat.lt_of_succ_lt_succ ht), wordAt_set, if_neg hne,
          carryWord_shift buf p a R _ hp s]

theorem nwordNat_pos (W n : Nat) (hn : 0 < n) : 0 < nwordNat W n := by
  unfold nwordNat
  by_cases hr : n % W = 0
  · rw [if_neg (by simpa using hr)]
    rcases Nat.eq_zero_or_pos W with hW | hW
    · rw [hW, Nat.mod_zero] at hr
      omega
    · exact Nat.div_pos (Nat.le_of_dvd hn (Nat.dvd_of_mod_eq_zero hr)) hW
  · rw [if_pos hr]
    exact Nat.succ_pos _

theorem grow1rowsSlots_spec (p nc : Nat) (shared : Bool) (c : BitCol) (o : Nat)
    (ho : c.words = (o : Int)) (hc : shared = false → o + p ≤ c.buf.length)
    (hal : shared = true → ∃ j0, j0 < nc ∧ o = j0 * p) :
    ∀ (s i1 : Nat) (buf : List BitWord), i1 + s ≤ p → buf.length = nc * p →
      ∃ buf', grow1rowsSlots (p : Int) nc shared c s (i1 : Int) buf = .ok buf' ∧
        buf'.length = buf.length ∧
        ∀ j < nc, ∀ a < p, wordAt buf' (a + j * p) =
          if i1 ≤ a ∧ a < i1 + s then
            wordAt buf (a + j * p) |||
              carryWord buf p a (wordAt (if shared then buf else c.buf) (o + a)) j
          else wordAt buf (a + j * p) := by
  intro s
  induction s with
  | zero =>
    intro i1 buf _ _
    refine ⟨buf, rfl, rfl, ?_⟩
    intro j _ a _
    rw [if_neg (by omega)]
  | succ s ih =>
    intro i1 buf hi hlen
    have hi1 : i1 < p := by omega
    have hp : 0 < p := by omega
    have hld : o + i1 < (if shared then buf else c.buf).length := by
      cases shared with
      | false =>
        have := hc rfl
        simp only [Bool.false_eq_true, if_false]
        omega
      | true =>
        obtain ⟨j0, hj0, rfl⟩ := hal rfl
        simp only [if_true]
        rw [hlen, Nat.add_comm]
        exact slot_index_lt hi1 hj0
    have e : (o : Int) + (i1 : Int) = ((o + i1 : Nat) : Int) := by push_cast; rfl
    have e1 : (i1 : Int) + 1 = ((i1 + 1 : Nat) : Int) := by push_cast; rfl
    have hb : ∀ t < nc, i1 + t * p < buf.length := by
      intro t ht
      rw [hlen]
      exact slot_index_lt hi1 ht
    obtain ⟨buf1, h1, h2, h3, h4⟩ :=
      grow1rowsCols_spec p hp nc i1 (wordAt (if shared then buf else c.buf) (o + i1)) buf hb
    obtain ⟨buf', g1, g2, g3⟩ := ih (i1 + 1) buf1 (by omega) (by rw [h2, hlen])
    refine ⟨buf', ?_, ?_, ?_⟩
    · simp only [grow1rowsSlots, ho, e, load_natCast _ _ hld, h1, bind, Except.bind, e1]
      exact g1
    · rw [g2, h2]
    · intro j hj a ha
      rw [g3 j hj a ha]
      by_cases hai : a = i1
      · subst hai
        rw [if_neg (by omega), if_pos (by omega), h4 j hj]
      · have hfr : wordAt buf1 (a + j * p) = wordAt buf (a + j * p) :=
          h3 _ (fun t _ => slot_index_ne ha hi1 hai)
        have hR : wordAt (if shared then buf1 else c.buf) (o + a) =
            wordAt (if shared then buf else c.buf) (o + a) := by
          cases shared with
          | false => rfl
          | true =>
            obtain ⟨j0, _, rfl⟩ := hal rfl
            simp only [if_true]
            rw [Nat.add_comm]
            exact h3 _ (fun t _ => slot_index_ne ha hi1 hai)
        have hcw : carryWord buf1 p a (wordAt (if shared then buf else c.buf) (o + a)) j =
            carryWord buf p a (wordAt (if shared then buf else c.buf) (o + a)) j :=
          carryWord_congr buf1 buf p a _ j
            (fun t _ => h3 _ (fun t' _ => slot_index_ne ha hi1 hai))
        rw [hfr, hR, hcw]
        by_cases hcond : i1 ≤ a ∧ a < i1 + (s + 1)
        · rw [if_pos hcond, if_pos (by omega)]
        · rw [if_neg hcond, if_neg (by omega)]

/-- The word-level effect of `_BitMatrix_grow1rows` on a well-formed matrix and a
valid column of the same length, which has its words outside the matrix buffer
or is one of the columns of the matrix: the call returns, the shape is unchanged
and the word of column `j` at slot `a` is or-ed with the carry entering column `j`. -/
theorem grow1rows_at_words {W : Nat} {m : BitMatrix} {c : BitCol} (shared : Bool)
    (hm : m.WF W) (hc : c.Valid W) (hnb : m.nrow = c.nbit)
    (hsh : shared = true → c.buf = m.words ∧ ∃ j0 : Nat, c.words = (j0 : Int) * m.nword_per_col) :
    ∃ (buf' : List BitWord) (p nc o : Nat),
      _BitMatrix_grow1rows_at shared m c = .ok { m with words := buf' } ∧
      m.nword_per_col = (p : Int) ∧ m.ncol = (nc : Int) ∧ c.words = (o : Int) ∧
      p = nwordNat W m.nrow.toNat ∧
      buf'.length = m.words.length ∧
      ∀ j < nc, ∀ a < p, wordAt buf' (a + j * p) =
        wordAt m.words (a + j * p) ||| carryWord m.words p a (wordAt c.buf (o + a)) j := by
  obtain ⟨nr, nc, hnr0, _, hnr, hnc, hp, hlen⟩ := hm.nat
  obtain ⟨o, ho⟩ := Int.eq_ofNat_of_zero_le hc.1
  have hcb : o + nwordNat W nr ≤ c.buf.length := by
    have h := hc.2
    rw [ho, ← hnb, hnr, nwordFor_natCast] at h
    exact_mod_cast h
  have hal : shared = true → ∃ j0, j0 < nc ∧ o = j0 * nwordNat W nr := by
    intro h
    obtain ⟨hbuf, j0, hj0⟩ := hsh h
    rw [ho, hp] at hj0
    have hoj : o = j0 * nwordNat W nr := by exact_mod_cast hj0
    refine ⟨j0, ?_, hoj⟩
    rw [hbuf, hlen, hoj] at hcb
    have h1 : (j0 + 1) * nwordNat W nr ≤ nc * nwordNat W nr := by
      rw [Nat.add_mul, Nat.one_mul]; exact hcb
    have hp0 : 0 < nwordNat W nr := nwordNat_pos W nr hnr0
    exact Nat.lt_of_succ_le (Nat.le_of_mul_le_mul_right h1 hp0)
  obtain ⟨buf', g1, g2, g3⟩ :=
    grow1rowsSlots_spec (nwordNat W nr) nc shared c o ho (fun _ => hcb) hal
      (nwordNat W nr) 0 m.words (by omega) hlen
  refine ⟨buf', nwordNat W nr, nc, o, ?_, hp, hnc, ho, ?_, g2, ?_⟩
  · unfold _BitMatrix_grow1rows_at
    rw [if_neg (by simpa using hnb), hp, hnc]
    simp only [Int.toNat_ofNat, bind, Except.bind]
    have g1' := g1
    simp only [Nat.cast_zero] at g1'
    rw [g1']
    rfl
  · rw [hnr, Int.toNat_ofNat]
  · intro j hj a ha
    rw [g3 j hj a ha, if_pos (by omega)]
    cases shared with
    | false => rfl
    | true =>
      rw [(hsh rfl).1]
      rfl

/-- The word-level effect of `_BitMatrix_grow1rows` for a column with its words outside
the matrix buffer. -/
theorem grow1rows_words {W : Nat} {m : BitMatrix} {c : BitCol}
    (hm : m.WF W) (hc : c.Valid W) (hnb : m.nrow = c.nbit) :
    ∃ (buf' : List BitWord) (p nc o : Nat),
      _BitMatrix_grow1rows m c = .ok { m with words := buf' } ∧
      m.nword_per_col = (p : Int) ∧ m.ncol = (nc : Int) ∧ c.words = (o : Int) ∧
      p = nwordNat W m.nrow.toNat ∧
      buf'.length = m.words.length ∧
      ∀ j < nc, ∀ a < p, wordAt buf' (a + j * p) =
        wordAt m.words (a + j * p) ||| carryWord m.words p a (wordAt c.buf (o + a)) j :=
  grow1rows_at_words false hm hc hnb (fun h => Bool.noConfusion h)

/-! ## Bits of a matrix and of a column -/

theorem allBelow_eq_true (f : Nat → Bool) : ∀ j, allBelow f j = true ↔ ∀ t < j, f t = true
  | 0 => by simp [allBelow]
  | j + 1 => by
    simp only [allBelow, Bool.and_eq_true, allBelow_eq_true f j]
    constructor
    · rintro ⟨h1, h2⟩ t ht
      rcases Nat.lt_succ_iff_lt_or_eq.mp ht with h | h
      · exact h2 t h
      · rw [h]; exact h1
    · intro h
      exact ⟨h j (Nat.lt_succ_self j), fun t ht => h t (Nat.lt_succ_of_lt ht)⟩

theorem BitCol_get_bit_ok {W : Nat} {c : BitCol} (hW : 0 < W) (hc : c.Valid W) {i : Int}
    (h0 : 0 ≤ i) (h1 : i < c.nbit) :
    _BitCol_get_bit W c i = .ok (cbit W c i.toNat).toNat := by
  obtain ⟨n, rfl⟩ := Int.eq_ofNat_of_zero_le h0
  obtain ⟨o, ho⟩ := Int.eq_ofNat_of_zero_le hc.1
  obtain ⟨nb, hnb⟩ := Int.eq_ofNat_of_zero_le (Int.le_trans h0 (Int.le_of_lt h1))
  have hn : n < nb := by rw [hnb] at h1; exact_mod_cast h1
  rw [BitCol_get_bit_nat W c o n hW ho (hc.col_index_lt hW ho hnb hn)]
  simp [cbit, bitOf, ho]

theorem BitMatrix.WF.mat_index_lt {W : Nat} {m : BitMatrix} (hm : m.WF W) (hW : 0 < W)
    {i j : Nat} (hi : (i : Int) < m.nrow) (hj : (j : Int) < m.ncol) :
    i / W + j * m.nword_per_col.toNat < m.words.length := by
  obtain ⟨nr, nc, _, _, hnr, hnc, hp, hlen⟩ := hm.nat
  rw [hp, hlen, Int.toNat_ofNat]
  rw [hnr] at hi
  rw [hnc] at hj
  exact slot_index_lt (div_lt_nwordNat W nr i hW (by exact_mod_cast hi)) (by exact_mod_cast hj)

theorem BitMatrix_get_bit_ok {W : Nat} {m : BitMatrix} (hW : 0 < W) (hm : m.WF W) {i j : Int}
    (hi0 : 0 ≤ i) (hi1 : i < m.nrow) (hj0 : 0 ≤ j) (hj1 : j < m.ncol) :
    _BitMatrix_get_bit W m i j = .ok (mbit W m i.toNat j.toNat).toNat := by
  obtain ⟨n, rfl⟩ := Int.eq_ofNat_of_zero_le hi0
  obtain ⟨k, rfl⟩ := Int.eq_ofNat_of_zero_le hj0
  have hlt := hm.mat_index_lt hW hi1 hj1
  obtain ⟨nr, nc, _, _, hnr, hnc, hp, hlen⟩ := hm.nat
  rw [hp, Int.toNat_ofNat] at hlt
  have e : (k : Int) * ((nwordNat W nr : Nat) : Int) + ((n / W : Nat) : Int) =
      ((n / W + k * nwordNat W nr : Nat) : Int) := by push_cast; omega
  simp only [_BitMatrix_get_bit, hp, tdiv_natCast, tmod_natCast, e, load_natCast _ _ hlt,
    bind, Except.bind, shrAnd1_natCast W _ _ (Nat.mod_lt _ hW), mbit, Int.toNat_ofNat]

theorem testBit_carryWord (buf : List BitWord) (p a : Nat) (R : BitWord) (r : Nat) :
    ∀ j, (carryWord buf p a R j).testBit r =
      (R.testBit r && allBelow (fun t => (wordAt buf (a + t * p)).testBit r) j)
  | 0 => by simp [carryWord, allBelow]
  | j + 1 => by
    rw [carryWord, Nat.testBit_and, testBit_carryWord buf p a R r j, allBelow]
    cases R.testBit r <;> simp

/-- The bit-level effect of `_BitMatrix_grow1rows`: the call returns a matrix of
the same shape in which bit `(i, j)` is the old bit or-ed with the carry that
reaches column `j` in row `i` (the column bit and all the old bits of the
lower columns of the row). -/
theorem grow1rows_bits {W : Nat} {m : BitMatrix} {c : BitCol} (hW : 0 < W)
    (hm : m.WF W) (hc : c.Valid W) (hnb : m.nrow = c.nbit) :
    ∃ m', _BitMatrix_grow1rows m c = .ok m' ∧ m'.WF W ∧
      m'.nrow = m.nrow ∧ m'.ncol = m.ncol ∧ m'.nword_per_col = m.nword_per_col ∧
      ∀ i j : Nat, (i : Int) < m.nrow → (j : Int) < m.ncol →
        mbit W m' i j = (mbit W m i j || (cbit W c i && allBelow (fun t => mbit W m i t) j)) := by
  obtain ⟨buf', p, nc, o, h1, hp, hnc, ho, hpe, hlen, hw⟩ := grow1rows_words hm hc hnb
  refine ⟨_, h1, ?_, rfl, rfl, rfl, ?_⟩
  · obtain ⟨w1, w2, w3, w4⟩ := hm
    exact ⟨w1, w2, w3, by simpa [hlen] using w4⟩
  · intro i j hi hj
    have hj' : j < nc := by rw [hnc] at hj; exact_mod_cast hj
    have ha : i / W < p := by
      rw [hpe]
      apply div_lt_nwordNat W _ i hW
      omega
    simp only [mbit, cbit, hp, ho, Int.toNat_ofNat]
    rw [hw j hj' (i / W) ha, Nat.testBit_or, testBit_carryWord]

/-! ## Row integers -/

theorem ofBits_lt (f : Nat → Bool) : ∀ n, ofBits f n < 2 ^ n
  | 0 => by simp [ofBits]
  | n + 1 => by
    have h := ofBits_lt f n
    have hb : (f n).toNat ≤ 1 := by cases f n <;> simp
    have h2 : (f n).toNat * 2 ^ n ≤ 1 * 2 ^ n := Nat.mul_le_mul_right _ hb
    rw [ofBits, Nat.pow_succ]
    omega

theorem testBit_ofBits (f : Nat → Bool) : ∀ n t, (ofBits f n).testBit t = (decide (t < n) && f t)
  | 0, t => by simp [ofBits]
  | n + 1, t => by
    have e : ofBits f (n + 1) = 2 ^ n * (f n).toNat + ofBits f n := by
      rw [ofBits, Nat.mul_comm, Nat.add_comm]
    rw [e, Nat.testBit_mul_pow_two_add _ (ofBits_lt f n), testBit_ofBits f n t]
    by_cases h : t < n
    · have h' : t < n + 1 := Nat.lt_succ_of_lt h
      simp [h, h']
    · rw [if_neg h]
      by_cases h2 : t = n
      · subst h2
        cases f t <;> simp
      · have h3 : ¬ t < n + 1 := by omega
        have h4 : t - n ≠ 0 := by omega
        have h5 : Nat.testBit 1 (t - n) = false := by
          have := @Nat.testBit_two_pow 0 (t - n)
          simp only [Nat.pow_zero] at this
          rw [this]; simp; omega
        cases f n <;> simp [h3, h5]

theorem ofBits_congr (f g : Nat → Bool) : ∀ n, (∀ t < n, f t = g t) → ofBits f n = ofBits g n
  | 0, _ => rfl
  | n + 1, h => by
    rw [ofBits, ofBits, h n (Nat.lt_succ_self n),
      ofBits_congr f g n (fun t ht => h t (Nat.lt_succ_of_lt ht))]

theorem allBelow_congr (f g : Nat → Bool) : ∀ n, (∀ t < n, f t = g t) → allBelow f n = allBelow g n
  | 0, _ => rfl
  | n + 1, h => by
    rw [allBelow, allBelow, h n (Nat.lt_succ_self n),
      allBelow_congr f g n (fun t ht => h t (Nat.lt_succ_of_lt ht))]

theorem allBelow_succ_shift (f : Nat → Bool) :
    ∀ t, allBelow f (t + 1) = (f 0 && allBelow (fun s => f (s + 1)) t)
  | 0 => by simp [allBelow]
  | t + 1 => by
    rw [allBelow, allBelow_succ_shift f t, allBelow]
    cases f 0 <;> simp

/-- Bit `t` of `x + 1` flips exactly when all lower bits of `x` are set. -/
theorem testBit_add_one (t : Nat) :
    ∀ x : Nat, (x + 1).testBit t = xor (x.testBit t) (allBelow (fun s => x.testBit s) t) := by
  induction t with
  | zero =>
    intro x
    simp only [allBelow, Nat.testBit_zero, Bool.xor_true]
    rcases Nat.mod_two_eq_zero_or_one x with h | h
    · have h2 : (x + 1) % 2 = 1 := by omega
      simp [h, h2]
    · have h2 : (x + 1) % 2 = 0 := by omega
      simp [h, h2]
  | succ t ih =>
    intro x
    rw [allBelow_succ_shift, Nat.testBit_succ, Nat.testBit_succ]
    have hs : (fun s => x.testBit (s + 1)) = (fun s => (x / 2).testBit s) := by
      funext s; exact Nat.testBit_succ x s
    rw [hs, Nat.testBit_zero]
    rcases Nat.mod_two_eq_zero_or_one x with h | h
    · have h2 : (x + 1) / 2 = x / 2 := by omega
      simp [h, h2]
    · have h2 : (x + 1) / 2 = x / 2 + 1 := by omega
      rw [h2, ih (x / 2)]
      simp [h]

theorem ofBits_grow (f : Nat → Bool) (n : Nat) :
    ofBits (fun j => f j || allBelow f j) n = growNat n (ofBits f n) := by
  apply Nat.eq_of_testBit_eq
  intro t
  unfold growNat
  rw [testBit_ofBits, Nat.testBit_mod_two_pow, Nat.testBit_or, testBit_add_one, testBit_ofBits]
  by_cases h : t < n
  · have hc : allBelow (fun s => (ofBits f n).testBit s) t = allBelow f t := by
      apply allBelow_congr
      intro s hs
      have : s < n := Nat.lt_trans hs h
      simp [testBit_ofBits, this]
    rw [hc]
    cases f t <;> cases allBelow f t <;> simp [h]
  · simp [h]

theorem rowBits_ok {W : Nat} {m : BitMatrix} (hW : 0 < W) (hm : m.WF W) {i : Int}
    (hi0 : 0 ≤ i) (hi1 : i < m.nrow) :
    ∀ n : Nat, (n : Int) ≤ m.ncol → rowBits W m i n = .ok (ofBits (mbit W m i.toNat) n)
  | 0, _ => rfl
  | n + 1, h => by
    have hn : (n : Int) < m.ncol := by push_cast at h; omega
    rw [rowBits, rowBits_ok hW hm hi0 hi1 n (Int.le_of_lt hn),
      BitMatrix_get_bit_ok hW hm hi0 hi1 (Int.ofNat_nonneg n) hn]
    simp [bind, Except.bind, pure, Except.pure, ofBits]

theorem rowInt_ok {W : Nat} {m : BitMatrix} (hW : 0 < W) (hm : m.WF W) {i : Int}
    (hi0 : 0 ≤ i) (hi1 : i < m.nrow) : rowInt W m i = .ok (rowNat W m i.toNat) := by
  unfold rowInt rowNat
  apply rowBits_ok hW hm hi0 hi1
  rw [Int.toNat_of_nonneg (Int.le_of_lt hm.2.1)]

/-- One `_BitMatrix_grow1rows` on row integers: a row selected by the column goes
from `r` to `growNat ncol r`, every other row keeps its integer. -/
theorem grow1rows_rowNat {W : Nat} {m : BitMatrix} {c : BitCol} (hW : 0 < W)
    (hm : m.WF W) (hc : c.Valid W) (hnb : m.nrow = c.nbit) :
    ∃ m', _BitMatrix_grow1rows m c = .ok m' ∧ m'.WF W ∧
      m'.nrow = m.nrow ∧ m'.ncol = m.ncol ∧ m'.nword_per_col = m.nword_per_col ∧
      ∀ i : Nat, (i : Int) < m.nrow →
        rowNat W m' i = if cbit W c i then growNat m.ncol.toNat (rowNat W m i) else rowNat W m i := by
  obtain ⟨m', h1, h2, h3, h4, h5, h6⟩ := grow1rows_bits hW hm hc hnb
  refine ⟨m', h1, h2, h3, h4, h5, ?_⟩
  intro i hi
  have hb : ∀ t < m.ncol.toNat, mbit W m' i t =
      (mbit W m i t || (cbit W c i && allBelow (fun s => mbit W m i s) t)) := by
    intro t ht
    apply h6 i t hi
    omega
  unfold rowNat
  rw [h4, ofBits_congr _ _ _ hb]
  cases hcb : cbit W c i
  · simp
  · simp only [Bool.true_and, if_true]
    exact ofBits_grow (mbit W m i) _

/-- A column placed as `ColumnPlacement` says is, when shared, a view of the matrix buffer
that starts at a column boundary. -/
theorem ColumnPlacement.shared_view {shared : Bool} {m : BitMatrix} {c : BitCol}
    (h : ColumnPlacement shared m c) :
    shared = true → c.buf = m.words ∧ ∃ j0 : Nat, c.words = (j0 : Int) * m.nword_per_col := by
  intro hs
  obtain ⟨j, hj0, _, rfl⟩ := h hs
  obtain ⟨j0, rfl⟩ := Int.eq_ofNat_of_zero_le hj0
  exact ⟨rfl, j0, rfl⟩

/-- The bits after `_BitMatrix_grow1rows`, for a column with words of its own or a column
of the matrix itself; `cbit W c i` is the bit of the column when the call is made. -/
theorem grow1rows_at_bits {W : Nat} {m : BitMatrix} {c : BitCol} (shared : Bool) (hW : 0 < W)
    (hm : m.WF W) (hc : c.Valid W) (hnb : m.nrow = c.nbit) (hsh : ColumnPlacement shared m c) :
    ∃ m', _BitMatrix_grow1rows_at shared m c = .ok m' ∧ m'.WF W ∧
      m'.nrow = m.nrow ∧ m'.ncol = m.ncol ∧ m'.nword_per_col = m.nword_per_col ∧
      ∀ i j : Nat, (i : Int) < m.nrow → (j : Int) < m.ncol →
        mbit W m' i j = (mbit W m i j || (cbit W c i && allBelow (fun t => mbit W m i t) j)) := by
  obtain ⟨buf', p, nc, o, h1, hp, hnc, ho, hpe, hlen, hw⟩ :=
    grow1rows_at_words shared hm hc hnb hsh.shared_view
  refine ⟨_, h1, ?_, rfl, rfl, rfl, ?_⟩
  · obtain ⟨w1, w2, w3, w4⟩ := hm
    exact ⟨w1, w2, w3, by simpa [hlen] using w4⟩
  · intro i j hi hj
    have hj' : j < nc := by rw [hnc] at hj; exact_mod_cast hj
    have ha : i / W < p := by
      rw [hpe]
      apply div_lt_nwordNat W _ i hW
      omega
    simp only [mbit, cbit, hp, ho, Int.toNat_ofNat]
    rw [hw j hj' (i / W) ha, Nat.testBit_or, testBit_carryWord]

/-- The row integers after `_BitMatrix_grow1rows`, for a column with words of its own or a
column of the matrix itself. -/
theorem grow1rows_at_rowNat {W : Nat} {m : BitMatrix} {c : BitCol} (shared : Bool) (hW : 0 < W)
    (hm : m.WF W) (hc : c.Valid W) (hnb : m.nrow = c.nbit) (hsh : ColumnPlacement shared m c) :
    ∃ m', _BitMatrix_grow1rows_at shared m c = .ok m' ∧ m'.WF W ∧
      m'.nrow = m.nrow ∧ m'.ncol = m.ncol ∧ m'.nword_per_col = m.nword_per_col ∧
      ∀ i : Nat, (i : Int) < m.nrow →
        rowNat W m' i = if cbit W c i then growNat m.ncol.toNat (rowNat W m i) else rowNat W m i := by
  obtain ⟨m', h1, h2, h3, h4, h5, h6⟩ := grow1rows_at_bits shared hW hm hc hnb hsh
  refine ⟨m', h1, h2, h3, h4, h5, ?_⟩
  intro i hi
  have hb : ∀ t < m.ncol.toNat, mbit W m' i t =
      (mbit W m i t || (cbit W c i && allBelow (fun s => mbit W m i s) t)) := by
    intro t ht
    apply h6 i t hi
    omega
  unfold rowNat
  rw [h4, ofBits_congr _ _ _ hb]
  cases hcb : cbit W c i
  · simp
  · simp only [Bool.true_and, if_true]
    exact ofBits_grow (mbit W m i) _

/-- A column that overlaps the matrix buffer without being one of its columns is
outside `ColumnPlacement`: the routine reads the second word of such a column after
it wrote that word, and the result is not the one for a column with the same
words in a buffer of its own. -/
theorem grow1rows_overlap :
    _BitMatrix_grow1rows_at true overlapMat overlapCol =
      .ok { overlapMat with words := [1, 1, 1, 1] } ∧
    _BitMatrix_grow1rows_at false overlapMat overlapCol =
      .ok { overlapMat with words := [1, 1, 1, 0] } := by
  decide

theorem growTimes_rowNat {W : Nat} {c : BitCol} (hW : 0 < W) (hc : c.Valid W) :
    ∀ (n : Nat) (m : BitMatrix), m.WF W → m.nrow = c.nbit →
      ∃ m', growTimes c n m = .ok m' ∧ m'.WF W ∧
        m'.nrow = m.nrow ∧ m'.ncol = m.ncol ∧ m'.nword_per_col = m.nword_per_col ∧
        ∀ i : Nat, (i : Int) < m.nrow →
          rowNat W m' i =
            if cbit W c i then (growNat m.ncol.toNat)^[n] (rowNat W m i) else rowNat W m i
  | 0, m, hm, _ => ⟨m, rfl, hm, rfl, rfl, rfl, fun i _ => by simp⟩
  | n + 1, m, hm, hnb => by
    obtain ⟨m1, h1, h2, h3, h4, h5, h6⟩ := grow1rows_rowNat hW hm hc hnb
    obtain ⟨m', g1, g2, g3, g4, g5, g6⟩ := growTimes_rowNat hW hc n m1 h2 (by rw [h3, hnb])
    refine ⟨m', ?_, g2, by rw [g3, h3], by rw [g4, h4], by rw [g5, h5], ?_⟩
    · simp only [growTimes, h1, bind, Except.bind]
      exact g1
    · intro i hi
      rw [g6 i (by rw [h3]; exact hi), h6 i hi, h4]
      cases cbit W c i <;> simp [Function.iterate_succ_apply]

theorem cbit_of_get_bit_one {W : Nat} {c : BitCol} (hW : 0 < W) (hc : c.Valid W) {i : Int}
    (h0 : 0 ≤ i) (h1 : i < c.nbit) (h : _BitCol_get_bit W c i = .ok 1) :
    cbit W c i.toNat = true := by
  rw [BitCol_get_bit_ok hW hc h0 h1] at h
  have h' := Except.ok.inj h
  revert h'
  cases cbit W c i.toNat <;> simp

theorem cbit_of_get_bit_zero {W : Nat} {c : BitCol} (hW : 0 < W) (hc : c.Valid W) {i : Int}
    (h0 : 0 ≤ i) (h1 : i < c.nbit) (h : _BitCol_get_bit W c i = .ok 0) :
    cbit W c i.toNat = false := by
  rw [BitCol_get_bit_ok hW hc h0 h1] at h
  have h' := Except.ok.inj h
  revert h'
  cases cbit W c i.toNat <;> simp

theorem rowNat_of_rowInt {W : Nat} {m : BitMatrix} (hW : 0 < W) (hm : m.WF W) {i : Int}
    (hi0 : 0 ≤ i) (hi1 : i < m.nrow) {v : Nat} (h : rowInt W m i = .ok v) :
    rowNat W m i.toNat = v := by
  rw [rowInt_ok hW hm hi0 hi1] at h
  exact Except.ok.inj h

theorem growNat_pred_two_pow (k a : Nat) (h : a ≤ k) :
    growNat k (2 ^ a - 1) = 2 ^ (min (a + 1) k) - 1 := by
  apply Nat.eq_of_testBit_eq
  intro t
  unfold growNat
  have h1 : 2 ^ a - 1 + 1 = 2 ^ a := Nat.sub_add_cancel (Nat.one_le_two_pow)
  rw [Nat.testBit_mod_two_pow, Nat.testBit_or, h1, Nat.testBit_two_pow_sub_one,
    Nat.testBit_two_pow_sub_one, Nat.testBit_two_pow]
  rw [Bool.eq_iff_iff]
  simp only [Bool.and_eq_true, Bool.or_eq_true, decide_eq_true_eq]
  omega

theorem growNat_iterate_zero (k : Nat) : ∀ n, (growNat k)^[n] 0 = 2 ^ (min n k) - 1
  | 0 => by simp
  | n + 1 => by
    rw [Function.iterate_succ_apply', growNat_iterate_zero k n,
      growNat_pred_two_pow k (min n k) (Nat.min_le_right n k)]
    congr 2
    omega

/-! ## Filling and construction -/

theorem setValLoop_spec (val : BitWord) :
    ∀ (n a : Nat) (buf : List BitWord), a + n ≤ buf.length →
      ∃ buf', setValLoop val n (a : Int) buf = .ok buf' ∧ buf'.length = buf.length ∧
        ∀ k, wordAt buf' k = if a ≤ k ∧ k < a + n then val else wordAt buf k := by
  intro n
  induction n with
  | zero =>
    intro a buf _
    refine ⟨buf, rfl, rfl, fun k => ?_⟩
    rw [if_neg (by omega)]
  | succ n ih =>
    intro a buf h
    have ha : a < buf.length := by omega
    have e : (a : Int) + 1 = ((a + 1 : Nat) : Int) := by push_cast; rfl
    obtain ⟨buf', h1, h2, h3⟩ := ih (a + 1) (buf.set a val) (by rw [List.length_set]; omega)
    refine ⟨buf', ?_, by rw [h2, List.length_set], ?_⟩
    · simp only [setValLoop, store_natCast _ _ _ ha, bind, Except.bind, e]
      exact h1
    · intro k
      rw [h3 k, wordAt_set]
      split_ifs <;> first | rfl | (exfalso; omega)

theorem setValCols_spec (val : BitWord) (p : Nat) :
    ∀ (n a : Nat) (buf : List BitWord), a + n * p ≤ buf.length →
      ∃ buf', setValCols val p (p : Int) n (a : Int) buf = .ok buf' ∧ buf'.length = buf.length ∧
        ∀ k, wordAt buf' k = if a ≤ k ∧ k < a + n * p then val else wordAt buf k := by
  intro n
  induction n with
  | zero =>
    intro a buf _
    refine ⟨buf, rfl, rfl, fun k => ?_⟩
    rw [if_neg (by omega)]
  | succ n ih =>
    intro a buf h
    have hmul : (n + 1) * p = p + n * p := by rw [Nat.add_mul, Nat.one_mul, Nat.add_comm]
    rw [hmul] at h
    have e : (a : Int) + (p : Int) = ((a + p : Nat) : Int) := by push_cast; rfl
    obtain ⟨buf1, h1, h2, h3⟩ := setValLoop_spec val p a buf (by omega)
    obtain ⟨buf', g1, g2, g3⟩ := ih (a + p) buf1 (by rw [h2]; omega)
    refine ⟨buf', ?_, by rw [g2, h2], ?_⟩
    · simp only [setValCols, h1, bind, Except.bind, e]
      exact g1
    · intro k
      rw [g3 k, h3 k, hmul]
      by_cases hk : a + p ≤ k ∧ k < a + p + n * p
      · rw [if_pos hk, if_pos (by omega)]
      · rw [if_neg hk]
        by_cases hk2 : a ≤ k ∧ k < a + p
        · rw [if_pos hk2, if_pos (by omega)]
        · rw [if_neg hk2, if_neg (by omega)]

theorem wordAt_replicate (n k : Nat) (val : BitWord) :
    wordAt (List.replicate n val) k = if k < n then val else 0 := by
  unfold wordAt
  by_cases h : k < n
  · simp [List.getD_eq_getElem?_getD, List.getElem?_replicate, h]
  · simp [List.getD_eq_getElem?_getD, List.getElem?_replicate, h]

theorem eq_replicate_of_wordAt (buf : List BitWord) (n : Nat) (val : BitWord)
    (hlen : buf.length = n) (h : ∀ k < n, wordAt buf k = val) : buf = List.replicate n val := by
  apply List.ext_getElem
  · rw [hlen, List.length_replicate]
  · intro k h1 h2
    have := h k (by omega)
    unfold wordAt at this
    rw [List.getD_eq_getElem?_getD, List.getElem?_eq_getElem h1] at this
    simpa using this

/-- The routine `_BitCol_set_val` on a valid column of positive length: it returns,
and exactly the `ceil(nbit / W)` words of the column are overwritten with `val`. -/
theorem BitCol_set_val_spec {W : Nat} {c : BitCol} (hc : c.Valid W) (hn : 0 < c.nbit)
    (val : BitWord) :
    ∃ buf', _BitCol_set_val W c val = .ok { c with buf := buf' } ∧
      buf'.length = c.buf.length ∧
      ∀ k, wordAt buf' k =
        if c.words.toNat ≤ k ∧ k < c.words.toNat + nwordNat W c.nbit.toNat then val
        else wordAt c.buf k := by
  obtain ⟨o, ho⟩ := Int.eq_ofNat_of_zero_le hc.1
  obtain ⟨nb, hnb⟩ := Int.eq_ofNat_of_zero_le (Int.le_of_lt hn)
  have h := hc.2
  rw [ho, hnb, nwordFor_natCast] at h
  obtain ⟨buf', h1, h2, h3⟩ := setValLoop_spec val (nwordNat W nb) o c.buf (by exact_mod_cast h)
  refine ⟨buf', ?_, h2, ?_⟩
  · simp only [_BitCol_set_val, hnb, nwordFor_natCast, Int.toNat_ofNat, ho, h1, bind, Except.bind]
    rfl
  · intro k
    rw [h3 k, ho, hnb, Int.toNat_ofNat, Int.toNat_ofNat]

theorem new_BitCol_spec (W : Nat) (nb : Nat) (hn : 0 < nb) (val : BitWord) :
    _new_BitCol W (nb : Int) val = .ok
      { buf := List.replicate (nwordNat W nb) val, words := 0,
        nword := (nwordNat W nb : Nat), nbit := (nb : Int) } := by
  have hn' : ¬ ((nb : Int) ≤ 0) := by omega
  unfold _new_BitCol
  rw [if_neg hn']
  simp only [nwordFor_natCast]
  have hv : BitCol.Valid W (BitCol.mk (Salloc (nwordNat W nb : Nat)) 0 (nwordNat W nb : Nat) nb) := by
    simp [BitCol.Valid, Salloc, nwordFor_natCast]
  obtain ⟨buf', h1, h2, h3⟩ := BitCol_set_val_spec hv (by simpa using hn) val
  rw [h1]
  have hb : buf' = List.replicate (nwordNat W nb) val := by
    apply eq_replicate_of_wordAt
    · simpa [Salloc] using h2
    · intro k hk
      rw [h3 k]
      simp [hk]
  simp only [hb]

theorem wrapInt_eq (x : Int) (h0 : 0 ≤ x) (h1 : x ≤ 2147483647) : wrapInt x = x := by
  unfold wrapInt
  omega

theorem wrapInt_le (x : Int) : wrapInt x ≤ 2147483647 := by
  unfold wrapInt
  omega

theorem new_BitMatrix_spec (W : Nat) (nr nc : Nat) (hr : 0 < nr) (hc : 0 < nc) (val : BitWord)
    (hsz : nwordNat W nr * nc ≤ 2147483647) :
    _new_BitMatrix W (nr : Int) (nc : Int) val = .ok
      { words := List.replicate (nc * nwordNat W nr) val,
        nword_per_col := (nwordNat W nr : Nat), nrow := (nr : Int), ncol := (nc : Int) } := by
  have hn' : ¬ ((nr : Int) ≤ 0 ∨ (nc : Int) ≤ 0) := by omega
  unfold _new_BitMatrix
  rw [if_neg hn']
  simp only [nwordFor_natCast, _BitMatrix_set_val]
  have hlen : (Salloc (wrapInt (((nwordNat W nr : Nat) : Int) * (nc : Int)))).length =
      nc * nwordNat W nr := by
    have e : ((nwordNat W nr : Nat) : Int) * (nc : Int) = ((nc * nwordNat W nr : Nat) : Int) := by
      push_cast; rw [Int.mul_comm]
    have hsz' : ((nc * nwordNat W nr : Nat) : Int) ≤ 2147483647 := by
      rw [Nat.mul_comm]; exact_mod_cast hsz
    unfold Salloc
    rw [List.length_replicate, e, wrapInt_eq _ (Int.ofNat_nonneg _) hsz', Int.toNat_ofNat]
  obtain ⟨buf', h1, h2, h3⟩ := setValCols_spec val (nwordNat W nr) nc 0 _ (by rw [hlen]; omega)
  simp only [Nat.cast_zero] at h1
  simp only [Int.toNat_ofNat, h1, bind, Except.bind, pure, Except.pure]
  have hb : buf' = List.replicate (nc * nwordNat W nr) val := by
    apply eq_replicate_of_wordAt
    · rw [h2, hlen]
    · intro k hk
      rw [h3 k, if_pos (by omega)]
  rw [hb]

theorem load_error {buf : List BitWord} {k : Int} {e : Fault} (h : load buf k = .error e) :
    e = .outOfRange := by
  unfold load at h
  split at h
  · split at h
    · cases h
    · cases h; rfl
  · cases h; rfl

theorem store_error {buf : List BitWord} {k : Int} {w : BitWord} {e : Fault}
    (h : store buf k w = .error e) : e = .outOfRange := by
  unfold store at h
  split at h
  · cases h
  · cases h; rfl

theorem store_natCast_error (buf : List BitWord) (k : Nat) (w : BitWord) (h : ¬ k < buf.length) :
    store buf (k : Int) w = .error .outOfRange := by
  simp [store, h]

/-- When the fill loop returns, every word it wrote was in the buffer. -/
theorem setValLoop_ok_bound (val : BitWord) :
    ∀ (n a : Nat) (buf buf' : List BitWord), setValLoop val n (a : Int) buf = .ok buf' →
      buf'.length = buf.length ∧ (n = 0 ∨ a + n ≤ buf.length) := by
  intro n
  induction n with
  | zero =>
    intro a buf buf' h
    cases h
    exact ⟨rfl, Or.inl rfl⟩
  | succ n ih =>
    intro a buf buf' h
    have e : (a : Int) + 1 = ((a + 1 : Nat) : Int) := by push_cast; rfl
    by_cases ha : a < buf.length
    · simp only [setValLoop, store_natCast _ _ _ ha, bind, Except.bind, e] at h
      obtain ⟨h1, h2⟩ := ih (a + 1) _ buf' h
      rw [List.length_set] at h1 h2
      exact ⟨h1, Or.inr (by omega)⟩
    · simp only [setValLoop, store_natCast_error _ _ _ ha, bind, Except.bind] at h
      cases h

theorem setValCols_ok_bound (val : BitWord) (p : Nat) :
    ∀ (n a : Nat) (buf buf' : List BitWord), setValCols val p (p : Int) n (a : Int) buf = .ok buf' →
      buf'.length = buf.length ∧ (n = 0 ∨ p = 0 ∨ a + n * p ≤ buf.length) := by
  intro n
  induction n with
  | zero =>
    intro a buf buf' h
    cases h
    exact ⟨rfl, Or.inl rfl⟩
  | succ n ih =>
    intro a buf buf' h
    have e : (a : Int) + (p : Int) = ((a + p : Nat) : Int) := by push_cast; rfl
    simp only [setValCols, bind, Except.bind] at h
    cases h1 : setValLoop val p (a : Int) buf with
    | error err =>
      rw [h1] at h
      cases h
    | ok buf1 =>
      rw [h1] at h
      simp only [e] at h
      obtain ⟨g1, g2⟩ := setValLoop_ok_bound val p a buf buf1 h1
      obtain ⟨k1, k2⟩ := ih (a + p) buf1 buf' h
      refine ⟨by rw [k1, g1], ?_⟩
      rw [g1] at k2
      have hmul : (n + 1) * p = p + n * p := by rw [Nat.add_mul, Nat.one_mul, Nat.add_comm]
      rw [hmul]
      rcases g2 with g2 | g2
      · exact Or.inr (Or.inl g2)
      · rcases k2 with k2 | k2 | k2
        · subst k2
          exact Or.inr (Or.inr (by omega))
        · exact Or.inr (Or.inl k2)
        · exact Or.inr (Or.inr (by omega))

/-- When `_new_BitMatrix` returns, the sizes are positive and the word count
`nword_per_col * ncol` fits an `int`. -/
theorem new_BitMatrix_ok {W : Nat} {nrow ncol : Int} {val : BitWord} {m : BitMatrix}
    (h : _new_BitMatrix W nrow ncol val = .ok m) :
    0 < nrow ∧ 0 < ncol ∧ nwordFor W nrow * ncol ≤ INT_MAX := by
  unfold _new_BitMatrix at h
  by_cases hneg : nrow ≤ 0 ∨ ncol ≤ 0
  · rw [if_pos hneg] at h
    cases h
  · rw [if_neg hneg] at h
    have hr : 0 < nrow := by omega
    have hc : 0 < ncol := by omega
    refine ⟨hr, hc, ?_⟩
    obtain ⟨nr, rfl⟩ := Int.eq_ofNat_of_zero_le (Int.le_of_lt hr)
    obtain ⟨nc, rfl⟩ := Int.eq_ofNat_of_zero_le (Int.le_of_lt hc)
    have hr' : 0 < nr := by exact_mod_cast hr
    have hc' : 0 < nc := by exact_mod_cast hc
    simp only [nwordFor_natCast, _BitMatrix_set_val, Int.toNat_ofNat, bind, Except.bind] at h
    rw [nwordFor_natCast]
    cases hs : setValCols val (nwordNat W nr) ((nwordNat W nr : Nat) : Int) nc 0
        (Salloc (wrapInt (((nwordNat W nr : Nat) : Int) * (nc : Int)))) with
    | error e =>
      rw [hs] at h
      cases h
    | ok buf' =>
      have hs' := hs
      rw [show (0 : Int) = ((0 : Nat) : Int) from rfl] at hs'
      obtain ⟨_, hb⟩ := setValCols_ok_bound val (nwordNat W nr) nc 0 _ buf' hs'
      have hp := nwordNat_pos W nr hr'
      have hlen : (Salloc (wrapInt (((nwordNat W nr : Nat) : Int) * (nc : Int)))).length =
          (wrapInt (((nwordNat W nr : Nat) : Int) * (nc : Int))).toNat := by
        unfold Salloc
        rw [List.length_replicate]
      rw [hlen] at hb
      have hw := wrapInt_le (((nwordNat W nr : Nat) : Int) * (nc : Int))
      have hle : nc * nwordNat W nr ≤
          (wrapInt (((nwordNat W nr : Nat) : Int) * (nc : Int))).toNat := by
        rcases hb with hb | hb | hb
        · omega
        · omega
        · omega
      have hnat : nwordNat W nr * nc ≤ 2147483647 := by
        rw [Nat.mul_comm]
        omega
      unfold INT_MAX
      exact_mod_cast hnat

theorem size_bound_nat {W nr nc : Nat} (h : nwordFor W (nr : Int) * (nc : Int) ≤ INT_MAX) :
    nwordNat W nr * nc ≤ 2147483647 := by
  rw [nwordFor_natCast] at h
  unfold INT_MAX at h
  exact_mod_cast h

/-- In a matrix that `_new_BitMatrix` returned the word count is in the range of `int`, and
so is each index product `j * nword_per_col` of `_BitMatrix_get_bit`, `_BitMatrix_set_bit`
and `_BitMatrix_get_col` for a column `j` of the matrix. -/
theorem new_BitMatrix_index_in_int {W : Nat} {nrow ncol : Int} {val : BitWord} {m : BitMatrix}
    (h : _new_BitMatrix W nrow ncol val = .ok m) (j : Int) (hj0 : 0 ≤ j) (hj1 : j < m.ncol) :
    m.nword_per_col * m.ncol ≤ INT_MAX ∧
      wrapInt (j * m.nword_per_col) = j * m.nword_per_col := by
  obtain ⟨hr, hc, hsz⟩ := new_BitMatrix_ok h
  obtain ⟨nr, rfl⟩ := Int.eq_ofNat_of_zero_le (Int.le_of_lt hr)
  obtain ⟨nc, rfl⟩ := Int.eq_ofNat_of_zero_le (Int.le_of_lt hc)
  have hr' : 0 < nr := by exact_mod_cast hr
  have hc' : 0 < nc := by exact_mod_cast hc
  rw [new_BitMatrix_spec W nr nc hr' hc' val (size_bound_nat hsz)] at h
  have hm := (Except.ok.inj h).symm
  subst hm
  rw [nwordFor_natCast] at hsz
  have hsz' : ((nwordNat W nr : Nat) : Int) * (nc : Int) ≤ 2147483647 := hsz
  have hj1' : j < (nc : Int) := hj1
  have hp0 : (0 : Int) ≤ (nwordNat W nr : Int) := Int.ofNat_nonneg _
  refine ⟨hsz, ?_⟩
  show wrapInt (j * (nwordNat W nr : Int)) = j * (nwordNat W nr : Int)
  apply wrapInt_eq
  · exact Int.mul_nonneg hj0 hp0
  · have h1 : j * (nwordNat W nr : Int) ≤ (nc : Int) * (nwordNat W nr : Int) :=
      Int.mul_le_mul_of_nonneg_right (Int.le_of_lt hj1') hp0
    rw [Int.mul_comm (nc : Int)] at h1
    exact Int.le_trans h1 hsz'

theorem toNat_testBit_eq (w r : Nat) : (w.testBit r).toNat = (w >>> r) &&& 1 := by
  rw [Nat.toNat_testBit, Nat.and_one_is_mod, Nat.shiftRight_eq_div_pow]

theorem nwordNat_bounds (W n : Nat) (hW : 0 < W) :
    n ≤ nwordNat W n * W ∧ nwordNat W n * W < n + W := by
  have hdm := Nat.div_add_mod n W
  have hlt := Nat.mod_lt n hW
  unfold nwordNat
  by_cases h : n % W = 0
  · rw [if_neg (by simpa using h), Nat.mul_comm]
    omega
  · rw [if_pos h, Nat.add_mul, Nat.one_mul, Nat.mul_comm]
    omega

theorem nwordNat_eq_ceil (W n : Nat) (hW : 0 < W) :
    ((nwordNat W n : Nat) : Int) = ⌈(n : ℚ) / (W : ℚ)⌉ := by
  symm
  have hWq : (0 : ℚ) < (W : ℚ) := by exact_mod_cast hW
  obtain ⟨h1, h2⟩ := nwordNat_bounds W n hW
  generalize nwordNat W n = z at h1 h2
  have h1q : (n : ℚ) ≤ (z : ℚ) * (W : ℚ) := by exact_mod_cast h1
  have h2q : (z : ℚ) * (W : ℚ) < (n : ℚ) + (W : ℚ) := by exact_mod_cast h2
  rw [Int.ceil_eq_iff]
  constructor
  · rw [lt_div_iff₀ hWq]
    push_cast
    linarith
  · rw [div_le_iff₀ hWq]
    push_cast
    exact h1q

theorem ofBits_false : ∀ n, ofBits (fun _ => false) n = 0
  | 0 => rfl
  | n + 1 => by rw [ofBits, ofBits_false n]; simp

/-! ## Single-bit writes -/

theorem BitMatrix_get_bit_eq_col (W : Nat) (m : BitMatrix) (i j : Int) :
    _BitMatrix_get_bit W m i j = _BitCol_get_bit W (_BitMatrix_get_col m j) i := rfl

theorem BitMatrix_set_bit_eq_col (W : Nat) (m : BitMatrix) (i j bit : Int) :
    _BitMatrix_set_bit W m i j bit =
      (_BitCol_set_bit W (_BitMatrix_get_col m j) i bit).map (fun v => { m with words := v.buf }) := by
  simp only [_BitMatrix_set_bit, _BitCol_set_bit, _BitMatrix_get_col, bind, Except.bind]
  cases shl1 W (i.tmod W) with
  | error e => rfl
  | ok mask =>
    simp only []
    cases load m.words (j * m.nword_per_col + i.tdiv W) with
    | error e => rfl
    | ok old =>
      simp only []
      cases store m.words (j * m.nword_per_col + i.tdiv W)
        (if bit ≠ 0 then old ||| mask else old &&& bnot W mask) with
      | error e => rfl
      | ok buf => rfl

theorem get_col_valid {W : Nat} {m : BitMatrix} (hm : m.WF W) {j : Int}
    (hj0 : 0 ≤ j) (hj1 : j < m.ncol) : (_BitMatrix_get_col m j).Valid W := by
  obtain ⟨k, rfl⟩ := Int.eq_ofNat_of_zero_le hj0
  obtain ⟨nr, nc, _, _, hnr, hnc, hp, hlen⟩ := hm.nat
  have hk : k < nc := by rw [hnc] at hj1; exact_mod_cast hj1
  have h1 : (k + 1) * nwordNat W nr ≤ nc * nwordNat W nr := Nat.mul_le_mul_right _ hk
  unfold BitCol.Valid _BitMatrix_get_col
  simp only [hp, hnr, nwordFor_natCast, hlen]
  constructor
  · exact_mod_cast Nat.zero_le (k * nwordNat W nr)
  · have : k * nwordNat W nr + nwordNat W nr ≤ nc * nwordNat W nr := by
      rw [Nat.add_mul, Nat.one_mul] at h1; exact h1
    exact_mod_cast this

theorem BitCol_set_bit_ok {W : Nat} {v : BitCol} (hW : 0 < W) (hv : v.Valid W) {i : Int}
    (hi0 : 0 ≤ i) (hi1 : i < v.nbit) (bit : Int) :
    v.words.toNat + i.toNat / W < v.buf.length ∧
    _BitCol_set_bit W v i bit = .ok (BitCol.mk
      (List.set v.buf (v.words.toNat + i.toNat / W)
        (setBitWord W (wordAt v.buf (v.words.toNat + i.toNat / W)) (i.toNat % W) bit))
      v.words v.nword v.nbit) := by
  obtain ⟨n, rfl⟩ := Int.eq_ofNat_of_zero_le hi0
  obtain ⟨o, ho⟩ := Int.eq_ofNat_of_zero_le hv.1
  obtain ⟨nb, hnb⟩ := Int.eq_ofNat_of_zero_le (Int.le_trans hi0 (Int.le_of_lt hi1))
  have hn : n < nb := by rw [hnb] at hi1; exact_mod_cast hi1
  have hlt := hv.col_index_lt hW ho hnb hn
  rw [BitCol_set_bit_nat W v o n bit hW ho hlt]
  simp only [ho, Int.toNat_ofNat]
  exact ⟨hlt, trivial⟩

theorem testBit_set_word (W : Nat) (buf : List BitWord) (kk r : Nat) (bit : Int)
    (hkk : kk < buf.length) (k t : Nat) (ht : t < W) :
    (wordAt (buf.set kk (setBitWord W (wordAt buf kk) r bit)) k).testBit t =
      if k = kk ∧ t = r then decide (bit ≠ 0) else (wordAt buf k).testBit t := by
  rw [wordAt_set]
  by_cases hk : kk = k
  · subst hk
    rw [if_pos ⟨rfl, hkk⟩, testBit_setBitWord W _ _ _ _ ht]
    by_cases hr : r = t
    · subst hr; simp
    · rw [if_neg hr, if_neg (fun h => hr h.2.symm)]
  · rw [if_neg (fun h => hk h.1), if_neg (fun h => hk h.1.symm)]

theorem div_mod_eq_iff (W : Nat) (a b : Nat) : (a / W = b / W ∧ a % W = b % W) ↔ a = b := by
  constructor
  · rintro ⟨h1, h2⟩
    rw [← Nat.div_add_mod a W, ← Nat.div_add_mod b W, h1, h2]
  · rintro rfl
    exact ⟨rfl, rfl⟩

theorem set_wordAt_self (buf : List BitWord) (k : Nat) (h : k < buf.length) :
    buf.set k (wordAt buf k) = buf := by
  apply List.ext_getElem?
  intro n
  rw [List.getElem?_set]
  by_cases h1 : k = n
  · subst h1
    simp [h, wordAt, List.getD_eq_getElem?_getD, List.getElem?_eq_getElem h]
  · rw [if_neg h1]

theorem setBitWord_set_clear (W : Nat) (w r : Nat) (hw : w < 2 ^ W)
    (hclear : w.testBit r = false) : setBitWord W (setBitWord W w r 1) r 0 = w := by
  apply Nat.eq_of_testBit_eq
  intro t
  by_cases ht : t < W
  · rw [testBit_setBitWord W _ _ _ _ ht, testBit_setBitWord W _ _ _ _ ht]
    by_cases h : r = t
    · subst h; simp [hclear]
    · simp [h]
  · have h1 : w.testBit t = false := by
      apply Nat.testBit_lt_two_pow
      exact Nat.lt_of_lt_of_le hw (Nat.pow_le_pow_right (by decide) (Nat.le_of_not_lt ht))
    have h0 : ¬ ((0 : Int) ≠ 0) := by simp
    rw [h1]
    conv => lhs; unfold setBitWord
    rw [if_neg h0, Nat.testBit_and, testBit_bnot]
    simp [ht]

/-- The bits of the buffer after the write of `_BitCol_set_bit` or `_BitMatrix_set_bit`
at word `o + i / W`, read at word `o' + i' / W`. -/
theorem bit_after_set (W : Nat) (hW : 0 < W) (buf : List BitWord) (o i o' i' : Nat) (bit : Int)
    (h : o + i / W < buf.length) :
    (wordAt (buf.set (o + i / W) (setBitWord W (wordAt buf (o + i / W)) (i % W) bit))
        (o' + i' / W)).testBit (i' % W) =
      if o' + i' / W = o + i / W ∧ i' % W = i % W then decide (bit ≠ 0)
      else (wordAt buf (o' + i' / W)).testBit (i' % W) :=
  testBit_set_word W buf _ _ bit h _ _ (Nat.mod_lt _ hW)

theorem mbit_eq_cbit {W : Nat} {m : BitMatrix} (hm : m.WF W) (i j : Nat) :
    mbit W m i j = cbit W (_BitMatrix_get_col m (j : Int)) i := by
  obtain ⟨nr, nc, _, _, _, _, hp, _⟩ := hm.nat
  have e : ((j : Int) * ((nwordNat W nr : Nat) : Int)).toNat = j * nwordNat W nr := by
    rw [← Int.ofNat_mul, Int.toNat_ofNat]
  simp only [mbit, cbit, _BitMatrix_get_col, hp, e, Int.toNat_ofNat, Nat.add_comm]

theorem slot_index_inj {p a b j t : Nat} (ha : a < p) (hb : b < p)
    (h : a + j * p = b + t * p) : a = b ∧ j = t := by
  have hab : a = b := by
    by_contra hne
    exact slot_index_ne ha hb hne h
  subst hab
  refine ⟨rfl, ?_⟩
  have h2 : j * p = t * p := by omega
  exact Nat.eq_of_mul_eq_mul_right (by omega) h2

/-- The routine `_BitMatrix_set_bit` on a well-formed matrix at an in-range position:
it returns, one word of the buffer is replaced, and exactly bit `(i, j)` changes,
to `bit != 0`. -/
theorem BitMatrix_set_bit_ok {W : Nat} {m : BitMatrix} (hW : 0 < W) (hm : m.WF W) {i j : Int}
    (hi0 : 0 ≤ i) (hi1 : i < m.nrow) (hj0 : 0 ≤ j) (hj1 : j < m.ncol) (bit : Int) :
    ∃ (k : Nat) (w : BitWord), k < m.words.length ∧
      k = i.toNat / W + j.toNat * m.nword_per_col.toNat ∧
      w = setBitWord W (wordAt m.words k) (i.toNat % W) bit ∧
      _BitCol_set_bit W (_BitMatrix_get_col m j) i bit =
        .ok (BitCol.mk (List.set m.words k w) (j * m.nword_per_col) m.nword_per_col m.nrow) ∧
      _BitMatrix_set_bit W m i j bit =
        .ok (BitMatrix.mk (List.set m.words k w) m.nword_per_col m.nrow m.ncol) ∧
      BitMatrix.WF W (BitMatrix.mk (List.set m.words k w) m.nword_per_col m.nrow m.ncol) ∧
      ∀ i' j' : Nat, (i' : Int) < m.nrow → (j' : Int) < m.ncol →
        mbit W (BitMatrix.mk (List.set m.words k w) m.nword_per_col m.nrow m.ncol) i' j' =
          if i' = i.toNat ∧ j' = j.toNat then decide (bit ≠ 0) else mbit W m i' j' := by
  have hv := get_col_valid hm hj0 hj1
  obtain ⟨hlt, hset⟩ := BitCol_set_bit_ok hW hv hi0 (show i < (_BitMatrix_get_col m j).nbit from hi1) bit
  obtain ⟨nr, nc, _, _, hnr, hnc, hp, hlen⟩ := hm.nat
  obtain ⟨jn, rfl⟩ := Int.eq_ofNat_of_zero_le hj0
  obtain ⟨n, rfl⟩ := Int.eq_ofNat_of_zero_le hi0
  have e : ((jn : Int) * ((nwordNat W nr : Nat) : Int)).toNat = jn * nwordNat W nr := by
    rw [← Int.ofNat_mul, Int.toNat_ofNat]
  have hn : n < nr := by rw [hnr] at hi1; exact_mod_cast hi1
  simp only [_BitMatrix_get_col, hp, e, Int.toNat_ofNat] at hlt hset
  rw [Nat.add_comm] at hlt hset
  refine ⟨n / W + jn * nwordNat W nr, _, hlt, ?_, rfl, ?_, ?_, ?_, ?_⟩
  · rw [hp, Int.toNat_ofNat, Int.toNat_ofNat, Int.toNat_ofNat]
  · simp only [_BitMatrix_get_col, hp, Int.toNat_ofNat]
    exact hset
  · rw [BitMatrix_set_bit_eq_col]
    simp only [_BitMatrix_get_col, hp, Int.toNat_ofNat]
    rw [hset]
    rfl
  · obtain ⟨w1, w2, w3, w4⟩ := hm
    exact ⟨w1, w2, w3, by simpa using w4⟩
  · intro i' j' hi' hj'
    have hi'n : i' < nr := by rw [hnr] at hi'; exact_mod_cast hi'
    have ha : n / W < nwordNat W nr := div_lt_nwordNat W nr n hW hn
    have ha' : i' / W < nwordNat W nr := div_lt_nwordNat W nr i' hW hi'n
    simp only [mbit, hp, Int.toNat_ofNat]
    rw [Nat.add_comm (n / W), Nat.add_comm (i' / W)]
    rw [Nat.add_comm] at hlt
    rw [bit_after_set W hW _ _ _ _ _ bit hlt]
    by_cases hc : i' = n ∧ j' = jn
    · obtain ⟨rfl, rfl⟩ := hc
      simp
    · rw [if_neg hc, if_neg]
      rintro ⟨h1, h2⟩
      rw [Nat.add_comm, Nat.add_comm (jn * _)] at h1
      obtain ⟨h3, h4⟩ := slot_index_inj ha' ha h1
      exact hc ⟨(div_mod_eq_iff W i' n).mp ⟨h3, h2⟩, h4⟩

theorem boolToNat_decide_ne_zero (b : Nat) (hb : b = 0 ∨ b = 1) :
    (decide ((b : Int) ≠ 0)).toNat = b := by
  rcases hb with rfl | rfl <;> simp

/-- Reading back after `_BitMatrix_set_bit`: the written position gives `bit != 0`,
every other in-range position gives its previous value. -/
theorem BitMatrix_get_after_set {W : Nat} {m : BitMatrix} (hW : 0 < W) (hm : m.WF W) {i j : Int}
    (hi0 : 0 ≤ i) (hi1 : i < m.nrow) (hj0 : 0 ≤ j) (hj1 : j < m.ncol) (bit : Int) :
    ∃ m', _BitMatrix_set_bit W m i j bit = .ok m' ∧ m'.WF W ∧
      m'.nrow = m.nrow ∧ m'.ncol = m.ncol ∧ m'.nword_per_col = m.nword_per_col ∧
      m'.words.length = m.words.length ∧
      ∀ i' j' : Int, 0 ≤ i' → i' < m.nrow → 0 ≤ j' → j' < m.ncol →
        _BitMatrix_get_bit W m' i' j' = .ok
          (if i' = i ∧ j' = j then decide (bit ≠ 0) else mbit W m i'.toNat j'.toNat).toNat := by
  obtain ⟨k, w, _, _, _, _, hset, hwf, hbits⟩ := BitMatrix_set_bit_ok hW hm hi0 hi1 hj0 hj1 bit
  refine ⟨_, hset, hwf, rfl, rfl, rfl, by simp, ?_⟩
  intro i' j' hi0' hi1' hj0' hj1'
  rw [BitMatrix_get_bit_ok hW hwf hi0' hi1' hj0' hj1',
    hbits i'.toNat j'.toNat (by omega) (by omega)]
  have e : (i'.toNat = i.toNat ∧ j'.toNat = j.toNat) ↔ (i' = i ∧ j' = j) := by omega
  by_cases hc : i' = i ∧ j' = j
  · rw [if_pos hc, if_pos (e.mpr hc)]
  · rw [if_neg hc, if_neg (fun h => hc (e.mp h))]

/-- Reading a bit after `_BitCol_set_val`: the call returns and every in-range bit
`i` of the result is bit `i mod W` of the fill word. -/
theorem BitCol_get_after_set_val {W : Nat} {v : BitCol} (hW : 0 < W) (hv : v.Valid W)
    (val : BitWord) {i : Int} (hi0 : 0 ≤ i) (hi1 : i < v.nbit) :
    ∃ v', _BitCol_set_val W v val = .ok v' ∧
      _BitCol_get_bit W v' i = .ok (val.testBit (i.toNat % W)).toNat := by
  have hn : 0 < v.nbit := by omega
  obtain ⟨buf', h1, h2, h3⟩ := BitCol_set_val_spec hv hn val
  have hv' : BitCol.Valid W (BitCol.mk buf' v.words v.nword v.nbit) := by
    unfold BitCol.Valid
    simp only [h2]
    exact hv
  refine ⟨_, h1, ?_⟩
  rw [BitCol_get_bit_ok hW hv' hi0 hi1]
  simp only [cbit]
  have hlt : i.toNat / W < nwordNat W v.nbit.toNat :=
    div_lt_nwordNat W _ _ hW (by omega)
  rw [h3, if_pos ⟨Nat.le_add_right _ _, Nat.add_lt_add_left hlt _⟩]

theorem new_BitCol_get_bit {W : Nat} (hW : 0 < W) {n : Int} (val : BitWord) {i : Int}
    (hi0 : 0 ≤ i) (hi1 : i < n) :
    ∃ v, _new_BitCol W n val = .ok v ∧ v.Valid W ∧ v.nbit = n ∧ v.words = 0 ∧
      v.nword = nwordFor W n ∧ v.buf = List.replicate (nwordFor W n).toNat val ∧
      _BitCol_get_bit W v i = .ok (val.testBit (i.toNat % W)).toNat := by
  obtain ⟨nb, rfl⟩ := Int.eq_ofNat_of_zero_le (Int.le_trans hi0 (Int.le_of_lt hi1))
  have hnb : 0 < nb := by omega
  have hv : BitCol.Valid W (BitCol.mk (List.replicate (nwordNat W nb) val) 0
      (nwordNat W nb : Nat) nb) := by
    simp [BitCol.Valid, nwordFor_natCast]
  refine ⟨_, new_BitCol_spec W nb hnb val, hv, rfl, rfl, ?_, ?_, ?_⟩
  · simp [nwordFor_natCast]
  · simp [nwordFor_natCast]
  · rw [BitCol_get_bit_ok hW hv hi0 hi1]
    simp only [cbit, Int.toNat_zero, Nat.zero_add]
    have hlt : i.toNat / W < nwordNat W nb := div_lt_nwordNat W _ _ hW (by omega)
    rw [wordAt_replicate, if_pos hlt]

/-! ## The column add on row integers (C1 - C4) -/

/-- C1, as stated, fails: on a 2-bit counter holding 1, one `_BitMatrix_grow1rows`
with a 1-bit column whose bit is set gives 3, not `(1 + 1) mod 4 = 2`. -/
theorem C1_counterexample :
    counter2_one.WF 64 ∧ rowInt 64 counter2_one 0 = .ok 1 ∧
    col1_set.Valid 64 ∧ _BitCol_get_bit 64 col1_set 0 = .ok 1 ∧
    (∃ m', growTimes col1_set 1 counter2_one = .ok m' ∧ rowInt 64 m' 0 = .ok 3 ∧
      rowInt 64 m' 0 ≠ .ok ((1 + 1) % 2 ^ 2)) := by
  refine ⟨by decide, by decide, by decide, by decide, ?_⟩
  exact ⟨{ counter2_one with words := [1, 1] }, by decide, by decide, by decide⟩

/-- C1 (amended): for a well-formed matrix with `nrow = 1` and `ncol = k` whose
row-0 integer is `v`, applying `_BitMatrix_grow1rows` `n` times with a 1-bit
column whose bit 0 is set returns a matrix whose row-0 integer is the `n`-fold
image of `v` under `r ↦ (r ||| (r + 1)) mod 2 ^ k`: each application sets the
lowest clear bit of the row and leaves a row with all `k` bits set unchanged. -/
theorem C1_grow1rows_single_row (W : Nat) (hW : 0 < W) (k v n : Nat) (m : BitMatrix) (c : BitCol)
    (hm : m.WF W) (hnr : m.nrow = 1) (hnc : m.ncol = (k : Int)) (hv : rowInt W m 0 = .ok v)
    (hc : c.Valid W) (hcn : c.nbit = 1) (hc0 : _BitCol_get_bit W c 0 = .ok 1) :
    ∃ m', growTimes c n m = .ok m' ∧
      rowInt W m' 0 = .ok ((fun r => (r ||| (r + 1)) % 2 ^ k)^[n] v) := by
  obtain ⟨m', h1, h2, h3, _, _, h6⟩ := growTimes_rowNat hW hc n m hm (by rw [hnr, hcn])
  have hi1 : (0 : Int) < m.nrow := by rw [hnr]; decide
  have hv' : rowNat W m 0 = v := rowNat_of_rowInt hW hm (Int.le_refl 0) hi1 hv
  have hb : cbit W c 0 = true :=
    cbit_of_get_bit_one hW hc (Int.le_refl 0) (by rw [hcn]; decide) hc0
  refine ⟨m', h1, ?_⟩
  rw [rowInt_ok hW h2 (Int.le_refl 0) (by rw [h3]; exact hi1)]
  have := h6 0 hi1
  rw [hb, hv', hnc] at this
  simp only [Int.toNat_zero, this, if_true, Int.toNat_ofNat]
  rfl

theorem C1_grow1rows_single_row_witness :
    ∃ m', growTimes col1_set 1 counter2_one = .ok m' ∧
      rowInt 64 m' 0 = .ok ((fun r => (r ||| (r + 1)) % 2 ^ 2)^[1] 1) :=
  C1_grow1rows_single_row 64 (by decide) 2 1 1 counter2_one col1_set
    (by decide) (by decide) (by decide) (by decide) (by decide) (by decide) (by decide)

/-- C2: for a well-formed matrix and a valid column with `nbit = nrow`, the column having
its words outside the matrix buffer or being one of the columns of the matrix
(`ColumnPlacement`), `_BitMatrix_grow1rows` returns, and every row `i` in `[0, nrow)` whose
bit in the added column is 0 keeps each of its `ncol` bits: `_BitMatrix_get_bit` at
`(i, j)` returns the same value before and after, for every `j` in `[0, ncol)`. -/
theorem C2_grow1rows_clear_bit_row_unchanged (W : Nat) (hW : 0 < W) (m : BitMatrix) (c : BitCol)
    (shared : Bool) (hm : m.WF W) (hc : c.Valid W) (hnb : c.nbit = m.nrow)
    (hsh : ColumnPlacement shared m c) :
    ∃ m', _BitMatrix_grow1rows_at shared m c = .ok m' ∧
      ∀ i j : Int, 0 ≤ i → i < m.nrow → 0 ≤ j → j < m.ncol →
        _BitCol_get_bit W c i = .ok 0 →
        ∃ b, _BitMatrix_get_bit W m i j = .ok b ∧ _BitMatrix_get_bit W m' i j = .ok b := by
  obtain ⟨m', h1, h2, h3, h4, _, h6⟩ := grow1rows_at_bits shared hW hm hc hnb.symm hsh
  refine ⟨m', h1, ?_⟩
  intro i j hi0 hi1 hj0 hj1 hci
  refine ⟨_, BitMatrix_get_bit_ok hW hm hi0 hi1 hj0 hj1, ?_⟩
  rw [BitMatrix_get_bit_ok hW h2 hi0 (by rw [h3]; exact hi1) hj0 (by rw [h4]; exact hj1)]
  have hb : cbit W c i.toNat = false :=
    cbit_of_get_bit_zero hW hc hi0 (by rw [hnb]; exact hi1) hci
  rw [h6 i.toNat j.toNat (by omega) (by omega), hb]
  simp

theorem C2_grow1rows_clear_bit_row_unchanged_witness :
    (rows2_5_3.WF 64 ∧ col2_first.Valid 64 ∧ col2_first.nbit = rows2_5_3.nrow ∧
      ColumnPlacement false rows2_5_3 col2_first ∧
      ∃ m', _BitMatrix_grow1rows_at false rows2_5_3 col2_first = .ok m' ∧
        ∀ i j : Int, 0 ≤ i → i < rows2_5_3.nrow → 0 ≤ j → j < rows2_5_3.ncol →
          _BitCol_get_bit 64 col2_first i = .ok 0 →
          ∃ b, _BitMatrix_get_bit 64 rows2_5_3 i j = .ok b ∧
            _BitMatrix_get_bit 64 m' i j = .ok b) ∧
    ((_BitMatrix_get_col rows2_5_3 2).Valid 64 ∧
      (_BitMatrix_get_col rows2_5_3 2).nbit = rows2_5_3.nrow ∧
      ColumnPlacement true rows2_5_3 (_BitMatrix_get_col rows2_5_3 2) ∧
      ∃ m', _BitMatrix_grow1rows_at true rows2_5_3 (_BitMatrix_get_col rows2_5_3 2) = .ok m' ∧
        ∀ i j : Int, 0 ≤ i → i < rows2_5_3.nrow → 0 ≤ j → j < rows2_5_3.ncol →
          _BitCol_get_bit 64 (_BitMatrix_get_col rows2_5_3 2) i = .ok 0 →
          ∃ b, _BitMatrix_get_bit 64 rows2_5_3 i j = .ok b ∧
            _BitMatrix_get_bit 64 m' i j = .ok b) :=
  ⟨⟨by decide, by decide, by decide, fun h => Bool.noConfusion h,
    C2_grow1rows_clear_bit_row_unchanged 64 (by decide) rows2_5_3 col2_first false
      (by decide) (by decide) (by decide) (fun h => Bool.noConfusion h)⟩,
   ⟨by decide, by decide, fun _ => ⟨2, by decide, by decide, rfl⟩,
    C2_grow1rows_clear_bit_row_unchanged 64 (by decide) rows2_5_3 (_BitMatrix_get_col rows2_5_3 2)
      true (by decide) (by decide) (by decide) (fun _ => ⟨2, by decide, by decide, rfl⟩)⟩⟩

/-- C3, as stated, fails: on a 2-bit counter holding 3, `_BitMatrix_grow1rows`
with a 1-bit column whose bit is set returns without error and leaves the row
integer at 3; it does not wrap to 0. -/
theorem C3_counterexample :
    counter2_three.WF 64 ∧ rowInt 64 counter2_three 0 = .ok (2 ^ 2 - 1) ∧
    col1_set.Valid 64 ∧ _BitCol_get_bit 64 col1_set 0 = .ok 1 ∧
    (∃ m', _BitMatrix_grow1rows counter2_three col1_set = .ok m' ∧ rowInt 64 m' 0 = .ok 3 ∧
      rowInt 64 m' 0 ≠ .ok 0) := by
  refine ⟨by decide, by decide, by decide, by decide, ?_⟩
  exact ⟨counter2_three, by decide, by decide, by decide⟩

/-- C3 (amended): the counter saturates.  If row `i` of a well-formed matrix has
integer `2 ^ ncol - 1` (all `ncol` bits set) and bit `i` of the added column is
1, then `_BitMatrix_grow1rows` returns without error and the integer of row `i`
is still `2 ^ ncol - 1`. -/
theorem C3_grow1rows_saturates (W : Nat) (hW : 0 < W) (m : BitMatrix) (c : BitCol) (i : Int)
    (hm : m.WF W) (hc : c.Valid W) (hnb : c.nbit = m.nrow) (hi0 : 0 ≤ i) (hi1 : i < m.nrow)
    (hv : rowInt W m i = .ok (2 ^ m.ncol.toNat - 1)) (hci : _BitCol_get_bit W c i = .ok 1) :
    ∃ m', _BitMatrix_grow1rows m c = .ok m' ∧ rowInt W m' i = .ok (2 ^ m.ncol.toNat - 1) := by
  obtain ⟨m', h1, h2, h3, _, _, h6⟩ := grow1rows_rowNat hW hm hc hnb.symm
  refine ⟨m', h1, ?_⟩
  have hv' : rowNat W m i.toNat = 2 ^ m.ncol.toNat - 1 := rowNat_of_rowInt hW hm hi0 hi1 hv
  have hb : cbit W c i.toNat = true :=
    cbit_of_get_bit_one hW hc hi0 (by rw [hnb]; exact hi1) hci
  rw [rowInt_ok hW h2 hi0 (by rw [h3]; exact hi1), h6 i.toNat (by omega), hb, hv',
    if_pos rfl, growNat_pred_two_pow _ _ (Nat.le_refl _)]
  congr 3
  omega

theorem C3_grow1rows_saturates_witness :
    ∃ m', _BitMatrix_grow1rows counter2_three col1_set = .ok m' ∧
      rowInt 64 m' 0 = .ok (2 ^ counter2_three.ncol.toNat - 1) :=
  C3_grow1rows_saturates 64 (by decide) counter2_three col1_set 0
    (by decide) (by decide) (by decide) (by decide) (by decide) (by decide) (by decide)

/-- C4, as stated, fails: after `_new_BitMatrix(40, 15, 0)` and four
`_BitMatrix_grow1rows` with the column `_new_BitCol(40, 33 + 2 ^ 39)` of
`debug_BitMatrix`, row 0 (selected by the column) has integer 15, not 4. -/
theorem C4_counterexample :
    ∃ m0 c m', _new_BitMatrix 64 40 15 0 = .ok m0 ∧ _new_BitCol 64 40 (33 + 2 ^ 39) = .ok c ∧
      _BitCol_get_bit 64 c 0 = .ok 1 ∧ growTimes c 4 m0 = .ok m' ∧
      rowInt 64 m' 0 = .ok 15 ∧ rowInt 64 m' 0 ≠ .ok (4 % 2 ^ 15) := by
  refine ⟨{ words := List.replicate 15 0, nword_per_col := 1, nrow := 40, ncol := 15 },
    { buf := [33 + 2 ^ 39], words := 0, nword := 1, nbit := 40 },
    { words := List.replicate 4 (33 + 2 ^ 39) ++ List.replicate 11 0,
      nword_per_col := 1, nrow := 40, ncol := 15 }, ?_, ?_, ?_, ?_, ?_, ?_⟩ <;> decide

/-- C4 (amended): for sizes whose word count `nword_per_col * ncol` fits an `int`,
starting from `_new_BitMatrix(nrow, ncol, 0)` and applying
`_BitMatrix_grow1rows` `n` times with the same valid column `c` (`nbit = nrow`, its words
outside the matrix buffer, so that it stays the same from call to call),
every call returns, every row whose bit in `c` is set has integer
`2 ^ min(n, ncol) - 1` and every row whose bit in `c` is clear has integer 0. -/
theorem C4_grow_from_zero (W : Nat) (hW : 0 < W) (nrow ncol : Int) (n : Nat) (c : BitCol)
    (hr : 0 < nrow) (hcl : 0 < ncol) (hsz : nwordFor W nrow * ncol ≤ INT_MAX)
    (hc : c.Valid W) (hnb : c.nbit = nrow) :
    ∃ m0 m', _new_BitMatrix W nrow ncol 0 = .ok m0 ∧ growTimes c n m0 = .ok m' ∧
      ∀ i : Int, 0 ≤ i → i < nrow →
        (_BitCol_get_bit W c i = .ok 1 → rowInt W m' i = .ok (2 ^ min n ncol.toNat - 1)) ∧
        (_BitCol_get_bit W c i = .ok 0 → rowInt W m' i = .ok 0) := by
  obtain ⟨nr, rfl⟩ := Int.eq_ofNat_of_zero_le (Int.le_of_lt hr)
  obtain ⟨nc, rfl⟩ := Int.eq_ofNat_of_zero_le (Int.le_of_lt hcl)
  have hr' : 0 < nr := by exact_mod_cast hr
  have hc' : 0 < nc := by exact_mod_cast hcl
  have hnew := new_BitMatrix_spec W nr nc hr' hc' 0 (size_bound_nat hsz)
  have hwf : BitMatrix.WF W (BitMatrix.mk (List.replicate (nc * nwordNat W nr) 0)
      (nwordNat W nr : Nat) nr nc) := by
    refine ⟨hr, hcl, ?_, ?_⟩
    · simp [nwordFor_natCast]
    · simp
  obtain ⟨m', h1, h2, h3, _, _, h6⟩ := growTimes_rowNat hW hc n _ hwf hnb.symm
  refine ⟨_, m', hnew, h1, ?_⟩
  intro i hi0 hi1
  have hz : rowNat W (BitMatrix.mk (List.replicate (nc * nwordNat W nr) 0)
      (nwordNat W nr : Nat) nr nc) i.toNat = 0 := by
    unfold rowNat
    have : mbit W (BitMatrix.mk (List.replicate (nc * nwordNat W nr) 0)
        (nwordNat W nr : Nat) nr nc) i.toNat = fun _ => false := by
      funext j
      simp [mbit, wordAt_replicate]
    rw [this, ofBits_false]
  have hrow := h6 i.toNat (by simp only [Int.toNat_of_nonneg hi0]; exact hi1)
  rw [hz] at hrow
  rw [rowInt_ok hW h2 hi0 (by rw [h3]; exact hi1), hrow]
  constructor
  · intro hb
    rw [cbit_of_get_bit_one hW hc hi0 (by rw [hnb]; exact hi1) hb, if_pos rfl,
      growNat_iterate_zero]
  · intro hb
    rw [cbit_of_get_bit_zero hW hc hi0 (by rw [hnb]; exact hi1) hb]
    simp

theorem C4_grow_from_zero_witness :
    ∃ m0 m', _new_BitMatrix 64 40 15 0 = .ok m0 ∧
      growTimes (BitCol.mk [33 + 2 ^ 39] 0 1 40) 4 m0 = .ok m' ∧
      ∀ i : Int, 0 ≤ i → i < 40 →
        (_BitCol_get_bit 64 (BitCol.mk [33 + 2 ^ 39] 0 1 40) i = .ok 1 →
          rowInt 64 m' i = .ok (2 ^ min 4 (15 : Int).toNat - 1)) ∧
        (_BitCol_get_bit 64 (BitCol.mk [33 + 2 ^ 39] 0 1 40) i = .ok 0 →
          rowInt 64 m' i = .ok 0) :=
  C4_grow_from_zero 64 (by decide) 40 15 4 (BitCol.mk [33 + 2 ^ 39] 0 1 40)
    (by decide) (by decide) (by decide) (by decide) (by decide)

/-! ## Single bits (C5 - C7) -/

/-- C5: for a valid column `v`, an index `i` in `[0, nbit)` and any `bit`,
`_BitCol_set_bit` returns a column on which `_BitCol_get_bit` at `i` gives 1 if
`bit != 0` and 0 otherwise; the pointer and sizes are unchanged, every word other
than word `i div W` of the column is unchanged, and so is every bit position
other than `i mod W` of that word. -/
theorem C5_BitCol_set_get_bit (W : Nat) (hW : 0 < W) (v : BitCol) (i bit : Int)
    (hv : v.Valid W) (hi0 : 0 ≤ i) (hi1 : i < v.nbit) :
    ∃ v', _BitCol_set_bit W v i bit = .ok v' ∧
      _BitCol_get_bit W v' i = .ok (if bit ≠ 0 then 1 else 0) ∧
      v'.words = v.words ∧ v'.nword = v.nword ∧ v'.nbit = v.nbit ∧
      v'.buf.length = v.buf.length ∧
      (∀ k : Nat, k ≠ v.words.toNat + i.toNat / W → v'.buf[k]? = v.buf[k]?) ∧
      (∃ w w', v.buf[v.words.toNat + i.toNat / W]? = some w ∧
        v'.buf[v.words.toNat + i.toNat / W]? = some w' ∧
        ∀ t : Nat, t < W → t ≠ i.toNat % W → w'.testBit t = w.testBit t) := by
  obtain ⟨hlt, hset⟩ := BitCol_set_bit_ok hW hv hi0 hi1 bit
  refine ⟨_, hset, ?_, rfl, rfl, rfl, by simp, ?_, ?_⟩
  · have hv' : BitCol.Valid W (BitCol.mk
        (List.set v.buf (v.words.toNat + i.toNat / W)
          (setBitWord W (wordAt v.buf (v.words.toNat + i.toNat / W)) (i.toNat % W) bit))
        v.words v.nword v.nbit) := by
      unfold BitCol.Valid
      simp only [List.length_set]
      exact hv
    rw [BitCol_get_bit_ok hW hv' hi0 hi1]
    simp only [cbit]
    rw [bit_after_set W hW _ _ _ _ _ bit hlt, if_pos ⟨rfl, rfl⟩]
    by_cases hb : bit = 0 <;> simp [hb]
  · intro k hk
    exact List.getElem?_set_ne (Ne.symm hk)
  · refine ⟨_, _, List.getElem?_eq_getElem hlt, List.getElem?_set_self hlt, ?_⟩
    intro t ht htr
    have e : v.buf[v.words.toNat + i.toNat / W] = wordAt v.buf (v.words.toNat + i.toNat / W) := by
      simp [wordAt, List.getD_eq_getElem?_getD, List.getElem?_eq_getElem hlt]
    rw [testBit_setBitWord W _ _ _ _ ht, if_neg (Ne.symm htr), e]

theorem C5_BitCol_set_get_bit_witness :
    ∃ v', _BitCol_set_bit 64 (BitCol.mk [33 + 2 ^ 39] 0 1 40) 5 0 = .ok v' ∧
      _BitCol_get_bit 64 v' 5 = .ok (if (0 : Int) ≠ 0 then 1 else 0) ∧
      v'.words = 0 ∧ v'.nword = 1 ∧ v'.nbit = 40 ∧ v'.buf.length = 1 ∧
      (∀ k : Nat, k ≠ (0 : Int).toNat + (5 : Int).toNat / 64 → v'.buf[k]? = [33 + 2 ^ 39][k]?) ∧
      (∃ w w', [33 + 2 ^ 39][(0 : Int).toNat + (5 : Int).toNat / 64]? = some w ∧
        v'.buf[(0 : Int).toNat + (5 : Int).toNat / 64]? = some w' ∧
        ∀ t : Nat, t < 64 → t ≠ (5 : Int).toNat % 64 → w'.testBit t = w.testBit t) :=
  C5_BitCol_set_get_bit 64 (by decide) (BitCol.mk [33 + 2 ^ 39] 0 1 40) 5 0
    (by decide) (by decide) (by decide)

/-- C6: for a well-formed matrix (`nword_per_col = ceil(nrow / W)`), in-range `i`, `j`
and `b` in `{0, 1}`, `_BitMatrix_set_bit(m, i, j, b)` returns a matrix on which
`_BitMatrix_get_bit` at an in-range `(i', j')` gives `b` when `(i', j') = (i, j)` and
the previous value otherwise.  Consequently, when bit `(i, j)` is clear, setting
it to 1 and then back to 0 gives a matrix with the same bits as before, and
with the same buffer when the words of the buffer are `W`-bit words. -/
theorem C6_BitMatrix_set_get_bit (W : Nat) (hW : 0 < W) (m : BitMatrix) (hm : m.WF W)
    (i j : Int) (hi0 : 0 ≤ i) (hi1 : i < m.nrow) (hj0 : 0 ≤ j) (hj1 : j < m.ncol)
    (b : Nat) (hb : b = 0 ∨ b = 1) :
    (∃ m', _BitMatrix_set_bit W m i j b = .ok m' ∧
      ∀ i' j' : Int, 0 ≤ i' → i' < m.nrow → 0 ≤ j' → j' < m.ncol →
        ∃ old, _BitMatrix_get_bit W m i' j' = .ok old ∧
          _BitMatrix_get_bit W m' i' j' = .ok (if i' = i ∧ j' = j then b else old)) ∧
    (_BitMatrix_get_bit W m i j = .ok 0 →
      ∃ m1 m2, _BitMatrix_set_bit W m i j 1 = .ok m1 ∧ _BitMatrix_set_bit W m1 i j 0 = .ok m2 ∧
        (∀ i' j' : Int, 0 ≤ i' → i' < m.nrow → 0 ≤ j' → j' < m.ncol →
          _BitMatrix_get_bit W m2 i' j' = _BitMatrix_get_bit W m i' j') ∧
        ((∀ w ∈ m.words, w < 2 ^ W) → m2 = m)) := by
  constructor
  · obtain ⟨m', h1, _, _, _, _, _, h7⟩ := BitMatrix_get_after_set hW hm hi0 hi1 hj0 hj1 (b : Int)
    refine ⟨m', h1, ?_⟩
    intro i' j' hi0' hi1' hj0' hj1'
    refine ⟨_, BitMatrix_get_bit_ok hW hm hi0' hi1' hj0' hj1', ?_⟩
    rw [h7 i' j' hi0' hi1' hj0' hj1']
    by_cases hc : i' = i ∧ j' = j
    · rw [if_pos hc, if_pos hc, boolToNat_decide_ne_zero b hb]
    · rw [if_neg hc, if_neg hc]
  · intro hclear
    have hcl : mbit W m i.toNat j.toNat = false := by
      rw [BitMatrix_get_bit_ok hW hm hi0 hi1 hj0 hj1] at hclear
      have h := Except.ok.inj hclear
      revert h
      cases mbit W m i.toNat j.toNat <;> simp
    obtain ⟨k, w1, hk, hkd, hw1, _, hset1, hwf1, hbits1⟩ :=
      BitMatrix_set_bit_ok hW hm hi0 hi1 hj0 hj1 1
    obtain ⟨k2, w2, _, hkd2, hw2, _, hset2, hwf2, hbits2⟩ :=
      BitMatrix_set_bit_ok hW hwf1 hi0 hi1 hj0 hj1 0
    have hk2 : k = k2 := by rw [hkd2, hkd]
    subst hk2
    refine ⟨_, _, hset1, hset2, ?_, ?_⟩
    · intro i' j' hi0' hi1' hj0' hj1'
      rw [BitMatrix_get_bit_ok hW hwf2 hi0' hi1' hj0' hj1',
        BitMatrix_get_bit_ok hW hm hi0' hi1' hj0' hj1',
        hbits2 i'.toNat j'.toNat (by simp only []; omega) (by simp only []; omega),
        hbits1 i'.toNat j'.toNat (by omega) (by omega)]
      by_cases hc : i'.toNat = i.toNat ∧ j'.toNat = j.toNat
      · rw [if_pos hc, hc.1, hc.2, hcl]
        simp
      · rw [if_neg hc, if_neg hc]
    · intro hwords
      have hwk : wordAt m.words k < 2 ^ W := by
        apply hwords
        simp only [wordAt, List.getD_eq_getElem?_getD, List.getElem?_eq_getElem hk,
          Option.getD_some]
        exact List.getElem_mem hk
      have hclk : (wordAt m.words k).testBit (i.toNat % W) = false := by
        rw [hkd]; exact hcl
      have e1 : wordAt (List.set m.words k w1) k = w1 := by
        rw [wordAt_set, if_pos ⟨rfl, hk⟩]
      simp only [] at hw2
      rw [e1, hw1, setBitWord_set_clear W _ _ hwk hclk] at hw2
      simp only [hw2, List.set_set, set_wordAt_self _ _ hk]

theorem C6_BitMatrix_set_get_bit_witness :
    (∃ m', _BitMatrix_set_bit 64 (BitMatrix.mk (List.replicate 15 0) 1 40 15) 39 14 (1 : Nat) = .ok m' ∧
      ∀ i' j' : Int, 0 ≤ i' → i' < 40 → 0 ≤ j' → j' < 15 →
        ∃ old, _BitMatrix_get_bit 64 (BitMatrix.mk (List.replicate 15 0) 1 40 15) i' j' = .ok old ∧
          _BitMatrix_get_bit 64 m' i' j' = .ok (if i' = 39 ∧ j' = 14 then 1 else old)) ∧
    (_BitMatrix_get_bit 64 (BitMatrix.mk (List.replicate 15 0) 1 40 15) 39 14 = .ok 0 →
      ∃ m1 m2, _BitMatrix_set_bit 64 (BitMatrix.mk (List.replicate 15 0) 1 40 15) 39 14 1 = .ok m1 ∧
        _BitMatrix_set_bit 64 m1 39 14 0 = .ok m2 ∧
        (∀ i' j' : Int, 0 ≤ i' → i' < 40 → 0 ≤ j' → j' < 15 →
          _BitMatrix_get_bit 64 m2 i' j' =
            _BitMatrix_get_bit 64 (BitMatrix.mk (List.replicate 15 0) 1 40 15) i' j') ∧
        ((∀ w ∈ List.replicate 15 0, w < 2 ^ 64) →
          m2 = BitMatrix.mk (List.replicate 15 0) 1 40 15)) :=
  C6_BitMatrix_set_get_bit 64 (by decide) (BitMatrix.mk (List.replicate 15 0) 1 40 15)
    (by decide) 39 14 (by decide) (by decide) (by decide) (by decide) 1 (Or.inr rfl)

/-- C7: a column extracted with `_BitMatrix_get_col` points into the matrix
buffer.  For a well-formed matrix, in-range `i`, `j` and `b` in `{0, 1}`:
(1) `_BitCol_set_bit` on the extracted column returns a column whose buffer is
exactly the buffer that `_BitMatrix_set_bit(m, i, j, b)` produces, and on the
matrix with that buffer `_BitMatrix_get_bit` at `(i, j)` gives `b`;
(2) after `_BitMatrix_set_bit(m, i, j, b)`, `_BitCol_get_bit` at `i` on column `j`
extracted from the result gives `b`. -/
theorem C7_column_view_aliasing (W : Nat) (hW : 0 < W) (m : BitMatrix) (hm : m.WF W)
    (i j : Int) (hi0 : 0 ≤ i) (hi1 : i < m.nrow) (hj0 : 0 ≤ j) (hj1 : j < m.ncol)
    (b : Nat) (hb : b = 0 ∨ b = 1) :
    (∃ v', _BitCol_set_bit W (_BitMatrix_get_col m j) i b = .ok v' ∧
      _BitMatrix_set_bit W m i j b = .ok { m with words := v'.buf } ∧
      _BitMatrix_get_bit W { m with words := v'.buf } i j = .ok b) ∧
    (∃ m', _BitMatrix_set_bit W m i j b = .ok m' ∧
      _BitCol_get_bit W (_BitMatrix_get_col m' j) i = .ok b) := by
  obtain ⟨k, w, _, _, _, hcol, hset, hwf, hbits⟩ :=
    BitMatrix_set_bit_ok hW hm hi0 hi1 hj0 hj1 (b : Int)
  have hget : _BitMatrix_get_bit W (BitMatrix.mk (List.set m.words k w) m.nword_per_col
      m.nrow m.ncol) i j = .ok b := by
    rw [BitMatrix_get_bit_ok hW hwf hi0 hi1 hj0 hj1, hbits i.toNat j.toNat (by omega) (by omega),
      if_pos ⟨rfl, rfl⟩, boolToNat_decide_ne_zero b hb]
  exact ⟨⟨_, hcol, hset, hget⟩, ⟨_, hset, hget⟩⟩

theorem C7_column_view_aliasing_witness :
    (∃ v', _BitCol_set_bit 64 (_BitMatrix_get_col rows2_5_3 2) 1 (1 : Nat) = .ok v' ∧
      _BitMatrix_set_bit 64 rows2_5_3 1 2 (1 : Nat) = .ok { rows2_5_3 with words := v'.buf } ∧
      _BitMatrix_get_bit 64 { rows2_5_3 with words := v'.buf } 1 2 = .ok 1) ∧
    (∃ m', _BitMatrix_set_bit 64 rows2_5_3 1 2 (1 : Nat) = .ok m' ∧
      _BitCol_get_bit 64 (_BitMatrix_get_col m' 2) 1 = .ok 1) :=
  C7_column_view_aliasing 64 (by decide) rows2_5_3 (by decide) 1 2
    (by decide) (by decide) (by decide) (by decide) 1 (Or.inr rfl)

/-! ## Filling (C8 - C10) -/

/-- C8: for every `n`, every word `pattern` and every `i` in `[0, n)` (so `n > 0`),
`_new_BitCol(n, pattern)` returns a column whose bit `i` is
`(pattern >> (i mod W)) & 1`; and `_BitCol_set_val(v, pattern)` on any valid column
`v` with `nbit = n` returns a column with the same property, whatever the
previous contents of `v`. -/
theorem C8_BitCol_fill_consistency (W : Nat) (hW : 0 < W) (n : Int) (pattern : BitWord) (i : Int)
    (hi0 : 0 ≤ i) (hi1 : i < n) :
    (∃ v, _new_BitCol W n pattern = .ok v ∧
      _BitCol_get_bit W v i = .ok ((pattern >>> (i.toNat % W)) &&& 1)) ∧
    (∀ v : BitCol, v.Valid W → v.nbit = n →
      ∃ v', _BitCol_set_val W v pattern = .ok v' ∧
        _BitCol_get_bit W v' i = .ok ((pattern >>> (i.toNat % W)) &&& 1)) := by
  constructor
  · obtain ⟨v, h1, _, _, _, _, _, h2⟩ := new_BitCol_get_bit hW pattern hi0 hi1
    exact ⟨v, h1, by rw [h2, toNat_testBit_eq]⟩
  · intro v hv hnb
    obtain ⟨v', h1, h2⟩ := BitCol_get_after_set_val hW hv pattern hi0 (by rw [hnb]; exact hi1)
    exact ⟨v', h1, by rw [h2, toNat_testBit_eq]⟩

theorem C8_BitCol_fill_consistency_witness :
    (∃ v, _new_BitCol 64 40 (33 + 2 ^ 39) = .ok v ∧
      _BitCol_get_bit 64 v 39 = .ok (((33 + 2 ^ 39) >>> ((39 : Int).toNat % 64)) &&& 1)) ∧
    (∀ v : BitCol, v.Valid 64 → v.nbit = 40 →
      ∃ v', _BitCol_set_val 64 v (33 + 2 ^ 39) = .ok v' ∧
        _BitCol_get_bit 64 v' 39 = .ok (((33 + 2 ^ 39) >>> ((39 : Int).toNat % 64)) &&& 1)) :=
  C8_BitCol_fill_consistency 64 (by decide) 40 (33 + 2 ^ 39) 39 (by decide) (by decide)

/-- C10, as stated, fails: with 64-bit words, `_new_BitCol(65, 1 << 0)` has bit 0 set
and also bit 64, because the pattern fills the second word too. -/
theorem C10_counterexample :
    ∃ v, _new_BitCol 64 65 (1 <<< 0) = .ok v ∧ v.buf = [1, 1] ∧
      _BitCol_get_bit 64 v 0 = .ok 1 ∧ _BitCol_get_bit 64 v 64 = .ok 1 :=
  ⟨BitCol.mk [1, 1] 0 2 65, by decide, by decide, by decide, by decide⟩

/-- C10 (amended): for every `k` in `[0, W)` and every `length > k`, the column
`_new_BitCol(length, 1 << k)` has bit `k` set, and a bit `i` in `[0, length)` is set
exactly when `i mod W = k`, since the pattern fills every word of the column;
when `length <= W + k` (in particular when the column has a single word) bit `k` is
the only bit set. -/
theorem C10_single_bit_pattern (W : Nat) (hW : 0 < W) (k : Nat) (hk : k < W) (length : Int)
    (hl : (k : Int) < length) (i : Int) (hi0 : 0 ≤ i) (hi1 : i < length) :
    ∃ v, _new_BitCol W length (1 <<< k) = .ok v ∧
      _BitCol_get_bit W v k = .ok 1 ∧
      _BitCol_get_bit W v i = .ok (if i.toNat % W = k then 1 else 0) ∧
      (length ≤ W + k → i ≠ k → _BitCol_get_bit W v i = .ok 0) := by
  obtain ⟨v, h1, _, _, _, _, _, h2⟩ := new_BitCol_get_bit hW (1 <<< k) hi0 hi1
  obtain ⟨v2, g1, _, _, _, _, _, g2⟩ :=
    new_BitCol_get_bit hW (1 <<< k) (Int.ofNat_nonneg k) hl
  have hv : v2 = v := by
    rw [h1] at g1
    exact (Except.ok.inj g1).symm
  subst hv
  have hbit : ∀ r : Nat, ((1 <<< k).testBit r).toNat = if r = k then 1 else 0 := by
    intro r
    rw [Nat.one_shiftLeft, Nat.testBit_two_pow]
    by_cases h : r = k
    · subst h; simp
    · rw [if_neg h]
      have : ¬ k = r := fun hh => h hh.symm
      simp [this]
  rw [hbit] at h2 g2
  have hkm : (k : Int).toNat % W = k := by
    rw [Int.toNat_ofNat]; exact Nat.mod_eq_of_lt hk
  rw [hkm, if_pos rfl] at g2
  refine ⟨v2, h1, g2, h2, ?_⟩
  intro hle hne
  rw [h2, if_neg]
  intro hmod
  have hdm := Nat.div_add_mod i.toNat W
  rw [hmod] at hdm
  have hq : i.toNat / W = 0 := by
    by_contra hq0
    have h1 : 1 ≤ i.toNat / W := Nat.one_le_iff_ne_zero.mpr hq0
    have h2 : W * 1 ≤ W * (i.toNat / W) := Nat.mul_le_mul_left W h1
    omega
  rw [hq] at hdm
  omega

theorem C10_single_bit_pattern_witness :
    ∃ v, _new_BitCol 64 40 (1 <<< 39) = .ok v ∧
      _BitCol_get_bit 64 v (39 : Nat) = .ok 1 ∧
      _BitCol_get_bit 64 v 5 = .ok (if (5 : Int).toNat % 64 = 39 then 1 else 0) ∧
      ((40 : Int) ≤ (64 : Nat) + (39 : Nat) → (5 : Int) ≠ (39 : Nat) →
        _BitCol_get_bit 64 v 5 = .ok 0) :=
  C10_single_bit_pattern 64 (by decide) 39 (by decide) 40 (by decide) 5 (by decide) (by decide)

/-! ## Errors (C11, C12) -/

theorem grow1rowsCols_eq_mem (npc : Int) :
    ∀ (n : Nat) (L : Int) (R : BitWord) (buf : List BitWord),
      grow1rowsCols npc n L R buf = ofMem (grow1rowsColsMem npc n L R buf)
  | 0, _, _, _ => rfl
  | n + 1, L, R, buf => by
    simp only [grow1rowsCols, grow1rowsColsMem, bind, Except.bind]
    cases load buf L with
    | error e => rfl
    | ok old =>
      simp only []
      cases store buf L (old ||| R) with
      | error e => rfl
      | ok buf' => exact grow1rowsCols_eq_mem npc n _ _ buf'

theorem grow1rowsSlots_eq_mem (npc : Int) (nc : Nat) (c : BitCol) :
    ∀ (n : Nat) (i1 : Int) (buf : List BitWord),
      grow1rowsSlots npc nc false c n i1 buf = ofMem (grow1rowsSlotsMem npc nc c n i1 buf)
  | 0, _, _ => rfl
  | n + 1, i1, buf => by
    simp only [grow1rowsSlots, grow1rowsSlotsMem, bind, Except.bind, Bool.false_eq_true,
      if_false]
    cases load c.buf (c.words + i1) with
    | error e => rfl
    | ok R =>
      simp only []
      rw [grow1rowsCols_eq_mem]
      rcases grow1rowsColsMem npc nc i1 R buf with ⟨buf', _ | e⟩
      · exact grow1rowsSlots_eq_mem npc nc c n _ buf'
      · rfl

theorem grow1rowsCols_error (npc : Int) :
    ∀ (n : Nat) (L : Int) (R : BitWord) (buf : List BitWord) (e : Fault),
      grow1rowsCols npc n L R buf = .error e → e = .outOfRange
  | 0, _, _, _, _, h => by cases h
  | n + 1, L, R, buf, e, h => by
    simp only [grow1rowsCols, bind, Except.bind] at h
    cases hl : load buf L with
    | error e' =>
      rw [hl] at h
      cases h
      exact load_error hl
    | ok old =>
      rw [hl] at h
      simp only [] at h
      cases hs : store buf L (old ||| R) with
      | error e' =>
        rw [hs] at h
        cases h
        exact store_error hs
      | ok buf' =>
        rw [hs] at h
        exact grow1rowsCols_error npc n _ _ buf' e h

theorem grow1rowsSlots_error (npc : Int) (nc : Nat) (shared : Bool) (c : BitCol) :
    ∀ (n : Nat) (i1 : Int) (buf : List BitWord) (e : Fault),
      grow1rowsSlots npc nc shared c n i1 buf = .error e → e = .outOfRange
  | 0, _, _, _, h => by cases h
  | n + 1, i1, buf, e, h => by
    simp only [grow1rowsSlots, bind, Except.bind] at h
    cases hl : load (if shared then buf else c.buf) (c.words + i1) with
    | error e' =>
      rw [hl] at h
      cases h
      exact load_error hl
    | ok R =>
      rw [hl] at h
      simp only [] at h
      cases hs : grow1rowsCols npc nc i1 R buf with
      | error e' =>
        rw [hs] at h
        cases h
        exact grow1rowsCols_error npc nc _ _ buf _ hs
      | ok buf' =>
        rw [hs] at h
        exact grow1rowsSlots_error npc nc shared c n _ buf' e h

/-- Wherever the words of the column are, the routine raises the incompatible-shape
error exactly when `nrow` and `nbit` differ. -/
theorem grow1rows_at_incompatible (shared : Bool) (m : BitMatrix) (c : BitCol) :
    _BitMatrix_grow1rows_at shared m c = .error .incompatible ↔ m.nrow ≠ c.nbit := by
  constructor
  · intro h hne
    unfold _BitMatrix_grow1rows_at at h
    rw [if_neg (by simpa using hne)] at h
    simp only [bind, Except.bind] at h
    cases hs : grow1rowsSlots m.nword_per_col m.ncol.toNat shared c m.nword_per_col.toNat 0
        m.words with
    | error e =>
      rw [hs] at h
      have := grow1rowsSlots_error _ _ _ _ _ _ _ _ hs
      subst this
      cases h
    | ok buf' =>
      rw [hs] at h
      cases h
  · intro h
    unfold _BitMatrix_grow1rows_at
    rw [if_pos h]

theorem grow1rows_eq_mem (m : BitMatrix) (c : BitCol) :
    _BitMatrix_grow1rows m c =
      (ofMem (grow1rowsMem m c)).map (fun b => { m with words := b }) := by
  unfold _BitMatrix_grow1rows _BitMatrix_grow1rows_at grow1rowsMem
  by_cases h : m.nrow ≠ c.nbit
  · rw [if_pos h, if_pos h]
    rfl
  · rw [if_neg h, if_neg h]
    simp only [bind, Except.bind, grow1rowsSlots_eq_mem]
    cases ofMem (grow1rowsSlotsMem m.nword_per_col m.ncol.toNat c m.nword_per_col.toNat 0
      m.words) <;> rfl

/-- C12: `_BitMatrix_grow1rows(bitmat, bitcol)` raises the incompatible-shape error if
and only if `bitmat.nrow != bitcol.nbit`; when it does, the matrix buffer is the
buffer of the call (the check precedes every write); and on a well-formed matrix
and a valid column of matching length the routine returns.  The buffer at the
end of a call is given by `grow1rowsMem`, which gives the result of the routine. -/
theorem C12_grow1rows_incompatible (W : Nat) (m : BitMatrix) (c : BitCol) :
    (_BitMatrix_grow1rows m c = .error .incompatible ↔ m.nrow ≠ c.nbit) ∧
    (m.nrow ≠ c.nbit → grow1rowsMem m c = (m.words, some .incompatible)) ∧
    (0 < W → m.WF W → c.Valid W → m.nrow = c.nbit →
      ∃ m', _BitMatrix_grow1rows m c = .ok m') ∧
    _BitMatrix_grow1rows m c =
      (ofMem (grow1rowsMem m c)).map (fun b => { m with words := b }) := by
  refine ⟨⟨?_, ?_⟩, ?_, ?_, grow1rows_eq_mem m c⟩
  · intro h hne
    unfold _BitMatrix_grow1rows _BitMatrix_grow1rows_at at h
    rw [if_neg (by simpa using hne)] at h
    simp only [bind, Except.bind] at h
    cases hs : grow1rowsSlots m.nword_per_col m.ncol.toNat false c m.nword_per_col.toNat 0
        m.words with
    | error e =>
      rw [hs] at h
      have := grow1rowsSlots_error _ _ _ _ _ _ _ _ hs
      subst this
      cases h
    | ok buf' =>
      rw [hs] at h
      cases h
  · intro h
    unfold _BitMatrix_grow1rows _BitMatrix_grow1rows_at
    rw [if_pos h]
  · intro h
    unfold grow1rowsMem
    rw [if_pos h]
  · intro hW hm hc hnb
    obtain ⟨m', h1, _⟩ := grow1rows_bits hW hm hc hnb
    exact ⟨m', h1⟩

theorem C12_grow1rows_incompatible_witness :
    _BitMatrix_grow1rows rows2_5_3 col1_set = .error .incompatible ∧
    grow1rowsMem rows2_5_3 col1_set = ([3, 2, 1], some .incompatible) ∧
    (∃ m', _BitMatrix_grow1rows rows2_5_3 col2_first = .ok m') :=
  ⟨(C12_grow1rows_incompatible 64 rows2_5_3 col1_set).1.2 (by decide),
    (C12_grow1rows_incompatible 64 rows2_5_3 col1_set).2.1 (by decide),
    (C12_grow1rows_incompatible 64 rows2_5_3 col2_first).2.2.1
      (by decide) (by decide) (by decide) (by decide)⟩

theorem getElem?_eq_wordAt (buf : List BitWord) (k : Nat) (h : k < buf.length) :
    buf[k]? = some (wordAt buf k) := by
  simp [wordAt, List.getD_eq_getElem?_getD, List.getElem?_eq_getElem h]

/-! ## Column extraction and the column add (C13 - C16) -/

/-- C13: for a well-formed matrix `m` and `j` in `[0, ncol)`, `_BitMatrix_get_col(m, j)` has
`nbit = m.nrow`, `nword = m.nword_per_col`, and for every `k` in `[0, nword_per_col)` its
`k`-th word is read without failure and is `m.words[j * nword_per_col + k]`; and for every
`i` in `[0, nrow)`, `_BitMatrix_get_bit(m, i, j)` and
`_BitCol_get_bit(_BitMatrix_get_col(m, j), i)` return the same bit. -/
theorem C13_get_col_agrees (W : Nat) (hW : 0 < W) (m : BitMatrix) (hm : m.WF W) (j : Int)
    (hj0 : 0 ≤ j) (hj1 : j < m.ncol) :
    (_BitMatrix_get_col m j).nbit = m.nrow ∧
    (_BitMatrix_get_col m j).nword = m.nword_per_col ∧
    (∀ k : Int, 0 ≤ k → k < m.nword_per_col →
      ∃ w, load (_BitMatrix_get_col m j).buf ((_BitMatrix_get_col m j).words + k) = .ok w ∧
        m.words[(j * m.nword_per_col + k).toNat]? = some w) ∧
    (∀ i : Int, 0 ≤ i → i < m.nrow →
      ∃ b, _BitMatrix_get_bit W m i j = .ok b ∧
        _BitCol_get_bit W (_BitMatrix_get_col m j) i = .ok b) := by
  refine ⟨rfl, rfl, ?_, ?_⟩
  · intro k hk0 hk1
    obtain ⟨nr, nc, _, _, _, hnc, hp, hlen⟩ := hm.nat
    obtain ⟨kn, rfl⟩ := Int.eq_ofNat_of_zero_le hk0
    obtain ⟨jn, rfl⟩ := Int.eq_ofNat_of_zero_le hj0
    have hk : kn < nwordNat W nr := by rw [hp] at hk1; exact_mod_cast hk1
    have hj : jn < nc := by rw [hnc] at hj1; exact_mod_cast hj1
    have hlt : kn + jn * nwordNat W nr < m.words.length := by
      rw [hlen]; exact slot_index_lt hk hj
    have e : (jn : Int) * ((nwordNat W nr : Nat) : Int) + (kn : Int) =
        ((kn + jn * nwordNat W nr : Nat) : Int) := by push_cast; omega
    refine ⟨wordAt m.words (kn + jn * nwordNat W nr), ?_, ?_⟩
    · simp only [_BitMatrix_get_col, hp, e]
      exact load_natCast _ _ hlt
    · rw [hp, e, Int.toNat_ofNat]
      exact getElem?_eq_wordAt _ _ hlt
  · intro i hi0 hi1
    exact ⟨_, BitMatrix_get_bit_ok hW hm hi0 hi1 hj0 hj1,
      (BitMatrix_get_bit_eq_col W m i j).symm.trans (BitMatrix_get_bit_ok hW hm hi0 hi1 hj0 hj1)⟩

theorem C13_get_col_agrees_witness :
    (_BitMatrix_get_col rows2_5_3 1).nbit = rows2_5_3.nrow ∧
    (_BitMatrix_get_col rows2_5_3 1).nword = rows2_5_3.nword_per_col ∧
    (∀ k : Int, 0 ≤ k → k < rows2_5_3.nword_per_col →
      ∃ w, load (_BitMatrix_get_col rows2_5_3 1).buf
          ((_BitMatrix_get_col rows2_5_3 1).words + k) = .ok w ∧
        rows2_5_3.words[(1 * rows2_5_3.nword_per_col + k).toNat]? = some w) ∧
    (∀ i : Int, 0 ≤ i → i < rows2_5_3.nrow →
      ∃ b, _BitMatrix_get_bit 64 rows2_5_3 i 1 = .ok b ∧
        _BitCol_get_bit 64 (_BitMatrix_get_col rows2_5_3 1) i = .ok b) :=
  C13_get_col_agrees 64 (by decide) rows2_5_3 (by decide) 1 (by decide) (by decide)

/-- C14: for a well-formed matrix `m` and a valid column `c` with `c.nbit = m.nrow`, the
column having its words outside the matrix buffer or being one of the columns of
the matrix (`ColumnPlacement`), `_BitMatrix_grow1rows` returns a matrix of the same shape
in which, for every word slot `i1` in `[0, nword_per_col)` and every `j` in `[0, ncol)`,
the word at (column `j`, slot `i1`) is `old(j, i1) | carry_j`, where `carry_0 = c.words[i1]`,
the word of the column when the call is made, and `carry_(j+1) = old(j, i1) & carry_j`
(the function `carryWord`).  The buffer keeps its length and every word of it is at
such a position, so no other word changes and the carry out of the last column
is dropped. -/
theorem C14_grow1rows_word_recurrence (W : Nat) (m : BitMatrix) (c : BitCol) (shared : Bool)
    (hm : m.WF W) (hc : c.Valid W) (hnb : c.nbit = m.nrow) (hsh : ColumnPlacement shared m c) :
    ∃ m', _BitMatrix_grow1rows_at shared m c = .ok m' ∧
      m'.nrow = m.nrow ∧ m'.ncol = m.ncol ∧ m'.nword_per_col = m.nword_per_col ∧
      m'.words.length = m.words.length ∧
      (∀ i1 j : Nat, (i1 : Int) < m.nword_per_col → (j : Int) < m.ncol →
        ∃ old cw, m.words[i1 + j * m.nword_per_col.toNat]? = some old ∧
          c.buf[c.words.toNat + i1]? = some cw ∧
          m'.words[i1 + j * m.nword_per_col.toNat]? =
            some (old ||| carryWord m.words m.nword_per_col.toNat i1 cw j)) ∧
      (∀ k : Nat, k < m.words.length →
        ∃ i1 j : Nat, (i1 : Int) < m.nword_per_col ∧ (j : Int) < m.ncol ∧
          k = i1 + j * m.nword_per_col.toNat) := by
  obtain ⟨buf', p, nc, o, h1, hp, hnc, ho, hpe, hlen, hw⟩ :=
    grow1rows_at_words shared hm hc hnb.symm hsh.shared_view
  obtain ⟨nr, nc', _, _, hnr, hnc', hp', hlen'⟩ := hm.nat
  have hncc : nc' = nc := by rw [hnc] at hnc'; exact_mod_cast hnc'.symm
  subst hncc
  have hpp : nwordNat W nr = p := by rw [hp] at hp'; exact_mod_cast hp'.symm
  rw [hpp] at hlen'
  have hcb : o + p ≤ c.buf.length := by
    have h := hc.2
    rw [ho, hnb, hnr, nwordFor_natCast, hpp] at h
    exact_mod_cast h
  refine ⟨_, h1, rfl, rfl, rfl, hlen, ?_, ?_⟩
  · intro i1 j hi1 hj
    have hi1' : i1 < p := by rw [hp] at hi1; exact_mod_cast hi1
    have hj' : j < nc' := by rw [hnc] at hj; exact_mod_cast hj
    have hlt : i1 + j * p < m.words.length := by rw [hlen']; exact slot_index_lt hi1' hj'
    refine ⟨wordAt m.words (i1 + j * p), wordAt c.buf (o + i1), ?_, ?_, ?_⟩
    · rw [hp, Int.toNat_ofNat]
      exact getElem?_eq_wordAt _ _ hlt
    · rw [ho, Int.toNat_ofNat]
      exact getElem?_eq_wordAt _ _ (by omega)
    · simp only [hp, Int.toNat_ofNat]
      rw [getElem?_eq_wordAt _ _ (by rw [hlen]; exact hlt), hw j hj' i1 hi1']
  · intro k hk
    rw [hlen'] at hk
    have hp0 : 0 < p := by
      rcases Nat.eq_zero_or_pos p with h | h
      · rw [h, Nat.mul_zero] at hk; exact absurd hk (Nat.not_lt_zero k)
      · exact h
    refine ⟨k % p, k / p, ?_, ?_, ?_⟩
    · rw [hp]; exact_mod_cast Nat.mod_lt k hp0
    · rw [hnc]
      have : k / p < nc' := by
        rw [Nat.div_lt_iff_lt_mul hp0]; exact hk
      exact_mod_cast this
    · rw [hp, Int.toNat_ofNat]
      have := Nat.mod_add_div k p
      rw [Nat.mul_comm] at this
      exact this.symm

theorem C14_grow1rows_word_recurrence_witness :
    rows2_5_3.WF 64 ∧ (_BitMatrix_get_col rows2_5_3 0).Valid 64 ∧
    (_BitMatrix_get_col rows2_5_3 0).nbit = rows2_5_3.nrow ∧
    ColumnPlacement true rows2_5_3 (_BitMatrix_get_col rows2_5_3 0) ∧
    ∃ m', _BitMatrix_grow1rows_at true rows2_5_3 (_BitMatrix_get_col rows2_5_3 0) = .ok m' ∧
      m'.nrow = rows2_5_3.nrow ∧ m'.ncol = rows2_5_3.ncol ∧
      m'.nword_per_col = rows2_5_3.nword_per_col ∧
      m'.words.length = rows2_5_3.words.length ∧
      (∀ i1 j : Nat, (i1 : Int) < rows2_5_3.nword_per_col → (j : Int) < rows2_5_3.ncol →
        ∃ old cw, rows2_5_3.words[i1 + j * rows2_5_3.nword_per_col.toNat]? = some old ∧
          (_BitMatrix_get_col rows2_5_3 0).buf[(_BitMatrix_get_col rows2_5_3 0).words.toNat + i1]? =
            some cw ∧
          m'.words[i1 + j * rows2_5_3.nword_per_col.toNat]? =
            some (old ||| carryWord rows2_5_3.words rows2_5_3.nword_per_col.toNat i1 cw j)) ∧
      (∀ k : Nat, k < rows2_5_3.words.length →
        ∃ i1 j : Nat, (i1 : Int) < rows2_5_3.nword_per_col ∧ (j : Int) < rows2_5_3.ncol ∧
          k = i1 + j * rows2_5_3.nword_per_col.toNat) :=
  ⟨by decide, by decide, by decide, fun _ => ⟨0, by decide, by decide, rfl⟩,
    C14_grow1rows_word_recurrence 64 rows2_5_3 (_BitMatrix_get_col rows2_5_3 0) true
      (by decide) (by decide) (by decide) (fun _ => ⟨0, by decide, by decide, rfl⟩)⟩

/-- C15: for a well-formed matrix, a valid column of matching length that has its words
outside the matrix buffer or is one of the columns of the matrix
(`ColumnPlacement`), every row `i` in `[0, nrow)` and column `j` in `[0, ncol)`,
`_BitMatrix_grow1rows` returns a matrix whose bit `(i, j)` is
`old(i, j) OR (c_i AND old(i, 0) AND ... AND old(i, j-1))`, where `c_i` is bit `i` of the added
column when the call is made; so a bit that was set stays set, and a row with
integer `r` and `c_i = 1` gets the integer `(r OR (r + 1)) mod 2 ^ ncol`. -/
theorem C15_grow1rows_row_closed_form (W : Nat) (hW : 0 < W) (m : BitMatrix) (c : BitCol)
    (shared : Bool) (hm : m.WF W) (hc : c.Valid W) (hnb : c.nbit = m.nrow)
    (hsh : ColumnPlacement shared m c) :
    ∃ m', _BitMatrix_grow1rows_at shared m c = .ok m' ∧
      ∀ i : Int, 0 ≤ i → i < m.nrow →
        _BitCol_get_bit W c i = .ok (cbit W c i.toNat).toNat ∧
        (∀ j : Int, 0 ≤ j → j < m.ncol →
          _BitMatrix_get_bit W m i j = .ok (mbit W m i.toNat j.toNat).toNat ∧
          _BitMatrix_get_bit W m' i j = .ok
            (mbit W m i.toNat j.toNat ||
              (cbit W c i.toNat && allBelow (mbit W m i.toNat) j.toNat)).toNat ∧
          (_BitMatrix_get_bit W m i j = .ok 1 → _BitMatrix_get_bit W m' i j = .ok 1)) ∧
        (∀ r : Nat, rowInt W m i = .ok r → _BitCol_get_bit W c i = .ok 1 →
          rowInt W m' i = .ok ((r ||| (r + 1)) % 2 ^ m.ncol.toNat)) := by
  obtain ⟨m', h1, h2, h3, h4, _, h6⟩ := grow1rows_at_bits shared hW hm hc hnb.symm hsh
  obtain ⟨m'', g1, _, _, _, _, g6⟩ := grow1rows_at_rowNat shared hW hm hc hnb.symm hsh
  have hmm : m'' = m' := by
    rw [h1] at g1
    exact (Except.ok.inj g1).symm
  subst hmm
  refine ⟨m'', h1, ?_⟩
  intro i hi0 hi1
  have hci := BitCol_get_bit_ok hW hc hi0 (by rw [hnb]; exact hi1)
  refine ⟨hci, ?_, ?_⟩
  · intro j hj0 hj1
    have hold := BitMatrix_get_bit_ok hW hm hi0 hi1 hj0 hj1
    have hnew : _BitMatrix_get_bit W m'' i j = .ok
        (mbit W m i.toNat j.toNat ||
          (cbit W c i.toNat && allBelow (mbit W m i.toNat) j.toNat)).toNat := by
      rw [BitMatrix_get_bit_ok hW h2 hi0 (by rw [h3]; exact hi1) hj0 (by rw [h4]; exact hj1),
        h6 i.toNat j.toNat (by omega) (by omega)]
    refine ⟨hold, hnew, ?_⟩
    intro hset
    rw [hold] at hset
    have hb : mbit W m i.toNat j.toNat = true := by
      have h := Except.ok.inj hset
      revert h
      cases mbit W m i.toNat j.toNat <;> simp
    rw [hnew, hb]
    rfl
  · intro r hr hone
    have hb := cbit_of_get_bit_one hW hc hi0 (by rw [hnb]; exact hi1) hone
    have hr' := rowNat_of_rowInt hW hm hi0 hi1 hr
    rw [rowInt_ok hW h2 hi0 (by rw [h3]; exact hi1), g6 i.toNat (by omega), hb, hr',
      if_pos rfl]
    rfl

theorem C15_grow1rows_row_closed_form_witness :
    rows2_5_3.WF 64 ∧ (_BitMatrix_get_col rows2_5_3 1).Valid 64 ∧
    (_BitMatrix_get_col rows2_5_3 1).nbit = rows2_5_3.nrow ∧
    ColumnPlacement true rows2_5_3 (_BitMatrix_get_col rows2_5_3 1) ∧
    ∃ m', _BitMatrix_grow1rows_at true rows2_5_3 (_BitMatrix_get_col rows2_5_3 1) = .ok m' ∧
      ∀ i : Int, 0 ≤ i → i < rows2_5_3.nrow →
        _BitCol_get_bit 64 (_BitMatrix_get_col rows2_5_3 1) i =
          .ok (cbit 64 (_BitMatrix_get_col rows2_5_3 1) i.toNat).toNat ∧
        (∀ j : Int, 0 ≤ j → j < rows2_5_3.ncol →
          _BitMatrix_get_bit 64 rows2_5_3 i j = .ok (mbit 64 rows2_5_3 i.toNat j.toNat).toNat ∧
          _BitMatrix_get_bit 64 m' i j = .ok
            (mbit 64 rows2_5_3 i.toNat j.toNat ||
              (cbit 64 (_BitMatrix_get_col rows2_5_3 1) i.toNat &&
                allBelow (mbit 64 rows2_5_3 i.toNat) j.toNat)).toNat ∧
          (_BitMatrix_get_bit 64 rows2_5_3 i j = .ok 1 → _BitMatrix_get_bit 64 m' i j = .ok 1)) ∧
        (∀ r : Nat, rowInt 64 rows2_5_3 i = .ok r →
          _BitCol_get_bit 64 (_BitMatrix_get_col rows2_5_3 1) i = .ok 1 →
          rowInt 64 m' i = .ok ((r ||| (r + 1)) % 2 ^ rows2_5_3.ncol.toNat)) :=
  ⟨by decide, by decide, by decide, fun _ => ⟨1, by decide, by decide, rfl⟩,
    C15_grow1rows_row_closed_form 64 (by decide) rows2_5_3 (_BitMatrix_get_col rows2_5_3 1) true
      (by decide) (by decide) (by decide) (fun _ => ⟨1, by decide, by decide, rfl⟩)⟩

theorem mbit_eq_testBit_rowNat (W : Nat) (m : BitMatrix) (i j : Nat) (hj : j < m.ncol.toNat) :
    mbit W m i j = (rowNat W m i).testBit j := by
  unfold rowNat
  rw [testBit_ofBits]
  simp [hj]

/-- Row integers after `n` column adds on the all-zero matrix of `nr` rows and `nc` columns. -/
theorem growTimes_zero_rowNat {W : Nat} (hW : 0 < W) (nr nc : Nat) (hr : 0 < nr) (hcl : 0 < nc)
    (n : Nat) {c : BitCol} (hc : c.Valid W) (hnb : c.nbit = (nr : Int)) :
    ∃ m', growTimes c n (BitMatrix.mk (List.replicate (nc * nwordNat W nr) 0)
        (nwordNat W nr : Nat) nr nc) = .ok m' ∧ m'.WF W ∧
      m'.nrow = (nr : Int) ∧ m'.ncol = (nc : Int) ∧
      ∀ i : Nat, i < nr → rowNat W m' i = if cbit W c i then 2 ^ (min n nc) - 1 else 0 := by
  have hwf : BitMatrix.WF W (BitMatrix.mk (List.replicate (nc * nwordNat W nr) 0)
      (nwordNat W nr : Nat) nr nc) := by
    refine ⟨?_, ?_, ?_, ?_⟩
    · show (0 : Int) < (nr : Int)
      exact_mod_cast hr
    · show (0 : Int) < (nc : Int)
      exact_mod_cast hcl
    · simp [nwordFor_natCast]
    · simp
  obtain ⟨m', h1, h2, h3, h4, _, h6⟩ := growTimes_rowNat hW hc n _ hwf hnb.symm
  refine ⟨m', h1, h2, h3, h4, ?_⟩
  intro i hi
  have hz : rowNat W (BitMatrix.mk (List.replicate (nc * nwordNat W nr) 0)
      (nwordNat W nr : Nat) nr nc) i = 0 := by
    unfold rowNat
    have : mbit W (BitMatrix.mk (List.replicate (nc * nwordNat W nr) 0)
        (nwordNat W nr : Nat) nr nc) i = fun _ => false := by
      funext j
      simp [mbit, wordAt_replicate]
    rw [this, ofBits_false]
  have hi' : (i : Int) < (nr : Int) := by exact_mod_cast hi
  rw [h6 i hi', hz]
  simp only [Int.toNat_ofNat, growNat_iterate_zero]

/-- C16: starting from the matrix `_new_BitMatrix(nrow, ncol, 0)`, which is returned when
the word count `nword_per_col * ncol` fits an `int`, and applying `_BitMatrix_grow1rows`
`n` times with the same valid column `c` (`nbit = nrow`, its words outside the matrix
buffer, so that it stays the same from call to call), every call returns; every row
`i` whose bit in `c` is set has exactly its columns `0 .. min(n, ncol) - 1` set, so its
integer is `2 ^ min(n, ncol) - 1`, and every row whose bit in `c` is clear has all its
bits clear. -/
theorem C16_unary_counting_from_zero (W : Nat) (hW : 0 < W) (nrow ncol : Int) (n : Nat)
    (c : BitCol) (hr : 0 < nrow) (hcl : 0 < ncol) (hsz : nwordFor W nrow * ncol ≤ INT_MAX)
    (hc : c.Valid W) (hnb : c.nbit = nrow) :
    ∃ m0 m', _new_BitMatrix W nrow ncol 0 = .ok m0 ∧ growTimes c n m0 = .ok m' ∧
      ∀ i : Int, 0 ≤ i → i < nrow →
        (_BitCol_get_bit W c i = .ok 1 →
          (∀ j : Int, 0 ≤ j → j < ncol →
            _BitMatrix_get_bit W m' i j = .ok (if j < min (n : Int) ncol then 1 else 0)) ∧
          rowInt W m' i = .ok (2 ^ min n ncol.toNat - 1)) ∧
        (_BitCol_get_bit W c i = .ok 0 →
          ∀ j : Int, 0 ≤ j → j < ncol → _BitMatrix_get_bit W m' i j = .ok 0) := by
  obtain ⟨nr, rfl⟩ := Int.eq_ofNat_of_zero_le (Int.le_of_lt hr)
  obtain ⟨nc, rfl⟩ := Int.eq_ofNat_of_zero_le (Int.le_of_lt hcl)
  have hr' : 0 < nr := by exact_mod_cast hr
  have hc' : 0 < nc := by exact_mod_cast hcl
  obtain ⟨m', h1, h2, h3, h4, h5⟩ := growTimes_zero_rowNat hW nr nc hr' hc' n hc hnb
  refine ⟨_, m', new_BitMatrix_spec W nr nc hr' hc' 0 (size_bound_nat hsz), h1, ?_⟩
  intro i hi0 hi1
  have hin : i.toNat < nr := by omega
  have hbit : ∀ j : Int, 0 ≤ j → j < (nc : Int) →
      _BitMatrix_get_bit W m' i j = .ok ((rowNat W m' i.toNat).testBit j.toNat).toNat := by
    intro j hj0 hj1
    rw [BitMatrix_get_bit_ok hW h2 hi0 (by rw [h3]; exact hi1) hj0 (by rw [h4]; exact hj1),
      mbit_eq_testBit_rowNat W m' _ _ (by rw [h4]; omega)]
  constructor
  · intro hone
    have hb := cbit_of_get_bit_one hW hc hi0 (by rw [hnb]; exact hi1) hone
    have hrow := h5 i.toNat hin
    rw [hb, if_pos rfl] at hrow
    constructor
    · intro j hj0 hj1
      rw [hbit j hj0 hj1, hrow, Nat.testBit_two_pow_sub_one]
      by_cases hlt : j < min (n : Int) (nc : Int)
      · rw [if_pos hlt]
        have : j.toNat < min n nc := by omega
        simp [this]
      · rw [if_neg hlt]
        have : ¬ j.toNat < min n nc := by omega
        simp [this]
    · rw [rowInt_ok hW h2 hi0 (by rw [h3]; exact hi1), hrow, Int.toNat_ofNat]
  · intro hzero j hj0 hj1
    have hb := cbit_of_get_bit_zero hW hc hi0 (by rw [hnb]; exact hi1) hzero
    have hrow := h5 i.toNat hin
    rw [hb] at hrow
    rw [hbit j hj0 hj1, hrow]
    simp

theorem C16_unary_counting_from_zero_witness :
    ∃ m0 m', _new_BitMatrix 64 40 15 0 = .ok m0 ∧
      growTimes (BitCol.mk [33 + 2 ^ 39] 0 1 40) 4 m0 = .ok m' ∧
      ∀ i : Int, 0 ≤ i → i < 40 →
        (_BitCol_get_bit 64 (BitCol.mk [33 + 2 ^ 39] 0 1 40) i = .ok 1 →
          (∀ j : Int, 0 ≤ j → j < 15 →
            _BitMatrix_get_bit 64 m' i j = .ok (if j < min ((4 : Nat) : Int) 15 then 1 else 0)) ∧
          rowInt 64 m' i = .ok (2 ^ min 4 (15 : Int).toNat - 1)) ∧
        (_BitCol_get_bit 64 (BitCol.mk [33 + 2 ^ 39] 0 1 40) i = .ok 0 →
          ∀ j : Int, 0 ≤ j → j < 15 → _BitMatrix_get_bit 64 m' i j = .ok 0) :=
  C16_unary_counting_from_zero 64 (by decide) 40 15 4 (BitCol.mk [33 + 2 ^ 39] 0 1 40)
    (by decide) (by decide) (by decide) (by decide) (by decide)

/-! ## Invariants, padding, refinement and bounds (C17 - C20) -/

theorem BitCol.WF.valid {W : Nat} {c : BitCol} (h : c.WF W) : c.Valid W := by
  obtain ⟨_, h2, h3, h4⟩ := h
  unfold BitCol.Valid
  rw [h4, h3, h2]
  exact ⟨Int.le_refl 0, by omega⟩

theorem BitMatrix_set_val_spec {W : Nat} {m : BitMatrix} (hm : m.WF W) (val : BitWord) :
    ∃ buf', _BitMatrix_set_val W m val = .ok (BitMatrix.mk buf' m.nword_per_col m.nrow m.ncol) ∧
      buf'.length = m.words.length ∧ ∀ k, k < m.words.length → wordAt buf' k = val := by
  obtain ⟨nr, nc, _, _, hnr, hnc, hp, hlen⟩ := hm.nat
  obtain ⟨buf', h1, h2, h3⟩ := setValCols_spec val (nwordNat W nr) nc 0 m.words (by omega)
  simp only [Nat.cast_zero] at h1
  refine ⟨buf', ?_, h2, ?_⟩
  · simp only [_BitMatrix_set_val, hnr, nwordFor_natCast, hnc, hp, Int.toNat_ofNat, h1,
      bind, Except.bind, pure, Except.pure]
  · intro k hk
    rw [h3 k, if_pos (by omega)]

theorem BitMatrix.WF.of_same_shape {W : Nat} {m m' : BitMatrix} (hm : m.WF W)
    (h1 : m'.nrow = m.nrow) (h2 : m'.ncol = m.ncol) (h3 : m'.nword_per_col = m.nword_per_col)
    (h4 : m'.words.length = m.words.length) : m'.WF W := by
  obtain ⟨w1, w2, w3, w4⟩ := hm
  exact ⟨by rw [h1]; exact w1, by rw [h2]; exact w2, by rw [h3, h1]; exact w3,
    by rw [h4, h2, h3]; exact w4⟩

/-- C17: the shape invariant of matrices (`nrow > 0`, `ncol > 0`,
`nword_per_col = ceil(nrow / W)`, buffer length `ncol * nword_per_col`) holds for every
matrix returned by `_new_BitMatrix` and is preserved by `_BitMatrix_set_val`,
`_BitMatrix_set_bit` (with in-range `i`, `j`) and `_BitMatrix_grow1rows`, none of which
changes `nrow`, `ncol`, `nword_per_col` or the buffer length.  Likewise the invariant
of columns (`nbit > 0`, `nword = ceil(nbit / W)`, buffer length `nword`) holds for
`_new_BitCol` and is preserved by `_BitCol_set_val` and `_BitCol_set_bit`. -/
theorem C17_shape_invariant (W : Nat) (hW : 0 < W) :
    (∀ m : BitMatrix, m.WF W →
      m.nword_per_col = ⌈(m.nrow : ℚ) / (W : ℚ)⌉ ∧
      (m.words.length : Int) = m.ncol * m.nword_per_col) ∧
    (∀ (nrow ncol : Int) (val : BitWord) (m : BitMatrix),
      _new_BitMatrix W nrow ncol val = .ok m → m.WF W) ∧
    (∀ (nrow ncol : Int) (val : BitWord), 0 < nrow → 0 < ncol →
      nwordFor W nrow * ncol ≤ INT_MAX → ∃ m, _new_BitMatrix W nrow ncol val = .ok m) ∧
    (∀ (m : BitMatrix) (val : BitWord), m.WF W →
      ∃ m', _BitMatrix_set_val W m val = .ok m' ∧ m'.WF W ∧ m'.nrow = m.nrow ∧
        m'.ncol = m.ncol ∧ m'.nword_per_col = m.nword_per_col ∧
        m'.words.length = m.words.length) ∧
    (∀ (m : BitMatrix) (i j bit : Int), m.WF W → 0 ≤ i → i < m.nrow → 0 ≤ j → j < m.ncol →
      ∃ m', _BitMatrix_set_bit W m i j bit = .ok m' ∧ m'.WF W ∧ m'.nrow = m.nrow ∧
        m'.ncol = m.ncol ∧ m'.nword_per_col = m.nword_per_col ∧
        m'.words.length = m.words.length) ∧
    (∀ (m : BitMatrix) (c : BitCol), m.WF W → c.Valid W → c.nbit = m.nrow →
      ∃ m', _BitMatrix_grow1rows m c = .ok m' ∧ m'.WF W ∧ m'.nrow = m.nrow ∧
        m'.ncol = m.ncol ∧ m'.nword_per_col = m.nword_per_col ∧
        m'.words.length = m.words.length) ∧
    (∀ v : BitCol, v.WF W →
      v.nword = ⌈(v.nbit : ℚ) / (W : ℚ)⌉ ∧ (v.buf.length : Int) = v.nword) ∧
    (∀ (nbit : Int) (val : BitWord), 0 < nbit →
      ∃ v, _new_BitCol W nbit val = .ok v ∧ v.WF W) ∧
    (∀ (v : BitCol) (val : BitWord), v.WF W →
      ∃ v', _BitCol_set_val W v val = .ok v' ∧ v'.WF W ∧ v'.nbit = v.nbit ∧
        v'.nword = v.nword ∧ v'.buf.length = v.buf.length) ∧
    (∀ (v : BitCol) (i bit : Int), v.WF W → 0 ≤ i → i < v.nbit →
      ∃ v', _BitCol_set_bit W v i bit = .ok v' ∧ v'.WF W ∧ v'.nbit = v.nbit ∧
        v'.nword = v.nword ∧ v'.buf.length = v.buf.length) := by
  have hnew : ∀ (nrow ncol : Int) (val : BitWord), 0 < nrow → 0 < ncol →
      nwordFor W nrow * ncol ≤ INT_MAX →
      ∃ m, _new_BitMatrix W nrow ncol val = .ok m ∧ m.WF W := by
    intro nrow ncol val hr hc hsz
    obtain ⟨nr, rfl⟩ := Int.eq_ofNat_of_zero_le (Int.le_of_lt hr)
    obtain ⟨nc, rfl⟩ := Int.eq_ofNat_of_zero_le (Int.le_of_lt hc)
    refine ⟨_, new_BitMatrix_spec W nr nc (by exact_mod_cast hr) (by exact_mod_cast hc) val
      (size_bound_nat hsz), hr, hc, ?_, ?_⟩
    · simp [nwordFor_natCast]
    · simp
  refine ⟨?_, ?_, ?_, ?_, ?_, ?_, ?_, ?_, ?_, ?_⟩
  · intro m hm
    obtain ⟨nr, nc, _, _, hnr, _, hp, _⟩ := hm.nat
    refine ⟨?_, hm.2.2.2⟩
    rw [hp, hnr]
    simp only [Int.cast_natCast]
    exact nwordNat_eq_ceil W nr hW
  · intro nrow ncol val m hm
    obtain ⟨hr, hc, hsz⟩ := new_BitMatrix_ok hm
    obtain ⟨m', hm', hwf⟩ := hnew nrow ncol val hr hc hsz
    rw [hm] at hm'
    cases hm'
    exact hwf
  · intro nrow ncol val hr hc hsz
    obtain ⟨m, hm, _⟩ := hnew nrow ncol val hr hc hsz
    exact ⟨m, hm⟩
  · intro m val hm
    obtain ⟨buf', h1, h2, _⟩ := BitMatrix_set_val_spec hm val
    exact ⟨_, h1, hm.of_same_shape rfl rfl rfl h2, rfl, rfl, rfl, h2⟩
  · intro m i j bit hm hi0 hi1 hj0 hj1
    obtain ⟨m', h1, h2, h3, h4, h5, h6, _⟩ := BitMatrix_get_after_set hW hm hi0 hi1 hj0 hj1 bit
    exact ⟨m', h1, h2, h3, h4, h5, h6⟩
  · intro m c hm hc hnb
    obtain ⟨buf', p, nc, o, h1, _, _, _, _, hlen, _⟩ := grow1rows_words hm hc hnb.symm
    exact ⟨_, h1, hm.of_same_shape rfl rfl rfl hlen, rfl, rfl, rfl, hlen⟩
  · intro v hv
    obtain ⟨h1, h2, h3, _⟩ := hv
    obtain ⟨nb, hnb⟩ := Int.eq_ofNat_of_zero_le (Int.le_of_lt h1)
    refine ⟨?_, h3⟩
    rw [h2, hnb, nwordFor_natCast]
    simp only [Int.cast_natCast]
    exact nwordNat_eq_ceil W nb hW
  · intro nbit val hn
    obtain ⟨nb, rfl⟩ := Int.eq_ofNat_of_zero_le (Int.le_of_lt hn)
    refine ⟨_, new_BitCol_spec W nb (by exact_mod_cast hn) val, hn, ?_, ?_, rfl⟩
    · simp [nwordFor_natCast]
    · simp
  · intro v val hv
    obtain ⟨buf', h1, h2, _⟩ := BitCol_set_val_spec hv.valid hv.1 val
    refine ⟨_, h1, ?_, rfl, rfl, h2⟩
    obtain ⟨w1, w2, w3, w4⟩ := hv
    exact ⟨w1, w2, by simp only [h2]; exact w3, w4⟩
  · intro v i bit hv hi0 hi1
    obtain ⟨_, hset⟩ := BitCol_set_bit_ok hW hv.valid hi0 hi1 bit
    refine ⟨_, hset, ?_, rfl, rfl, by simp⟩
    obtain ⟨w1, w2, w3, w4⟩ := hv
    exact ⟨w1, w2, by simp only [List.length_set]; exact w3, w4⟩

theorem C17_shape_invariant_witness :
    (∃ m, _new_BitMatrix 64 40 15 0 = .ok m) ∧
    (∀ m, _new_BitMatrix 64 40 15 0 = .ok m → m.WF 64) ∧
    (∃ m', _BitMatrix_set_val 64 rows2_5_3 7 = .ok m' ∧ m'.WF 64 ∧ m'.nrow = rows2_5_3.nrow ∧
      m'.ncol = rows2_5_3.ncol ∧ m'.nword_per_col = rows2_5_3.nword_per_col ∧
      m'.words.length = rows2_5_3.words.length) ∧
    (∃ m', _BitMatrix_set_bit 64 rows2_5_3 1 2 1 = .ok m' ∧ m'.WF 64 ∧ m'.nrow = rows2_5_3.nrow ∧
      m'.ncol = rows2_5_3.ncol ∧ m'.nword_per_col = rows2_5_3.nword_per_col ∧
      m'.words.length = rows2_5_3.words.length) ∧
    (∃ m', _BitMatrix_grow1rows rows2_5_3 col2_first = .ok m' ∧ m'.WF 64 ∧
      m'.nrow = rows2_5_3.nrow ∧ m'.ncol = rows2_5_3.ncol ∧
      m'.nword_per_col = rows2_5_3.nword_per_col ∧
      m'.words.length = rows2_5_3.words.length) ∧
    (∃ v, _new_BitCol 64 40 (33 + 2 ^ 39) = .ok v ∧ v.WF 64) ∧
    (∃ v', _BitCol_set_val 64 col2_first 2 = .ok v' ∧ v'.WF 64 ∧ v'.nbit = col2_first.nbit ∧
      v'.nword = col2_first.nword ∧ v'.buf.length = col2_first.buf.length) ∧
    (∃ v', _BitCol_set_bit 64 col2_first 1 1 = .ok v' ∧ v'.WF 64 ∧ v'.nbit = col2_first.nbit ∧
      v'.nword = col2_first.nword ∧ v'.buf.length = col2_first.buf.length) :=
  ⟨(C17_shape_invariant 64 (by decide)).2.2.1 40 15 0 (by decide) (by decide) (by decide),
    (C17_shape_invariant 64 (by decide)).2.1 40 15 0,
    (C17_shape_invariant 64 (by decide)).2.2.2.1 rows2_5_3 7 (by decide),
    (C17_shape_invariant 64 (by decide)).2.2.2.2.1 rows2_5_3 1 2 1
      (by decide) (by decide) (by decide) (by decide) (by decide),
    (C17_shape_invariant 64 (by decide)).2.2.2.2.2.1 rows2_5_3 col2_first
      (by decide) (by decide) (by decide),
    (C17_shape_invariant 64 (by decide)).2.2.2.2.2.2.2.1 40 (33 + 2 ^ 39) (by decide),
    (C17_shape_invariant 64 (by decide)).2.2.2.2.2.2.2.2.1 col2_first 2 (by decide),
    (C17_shape_invariant 64 (by decide)).2.2.2.2.2.2.2.2.2 col2_first 1 1
      (by decide) (by decide) (by decide)⟩

/-- C18: if two well-formed matrices of the same shape have the same bit at every
`(i, j)` with `i` in `[0, nrow)`, `j` in `[0, ncol)`, and two valid columns with `nbit = nrow`
have the same bit at every `i` in `[0, nrow)` (the words may differ in their padding
bits), each column having its words outside the buffer of the matrix it is added
to or being one of the columns of that matrix (`ColumnPlacement`), then `_BitMatrix_get_bit` and `_BitCol_get_bit` return the same values on them,
and after `_BitMatrix_grow1rows`, and after `_BitMatrix_set_bit` at an in-range position,
`_BitMatrix_get_bit` returns the same value on the two results at every in-range
`(i, j)`. -/
theorem C18_padding_independence (W : Nat) (hW : 0 < W) (m1 m2 : BitMatrix) (c1 c2 : BitCol)
    (s1 s2 : Bool) (hm1 : m1.WF W) (hm2 : m2.WF W) (hrow : m2.nrow = m1.nrow) (hcol : m2.ncol = m1.ncol)
    (hc1 : c1.Valid W) (hc2 : c2.Valid W) (hnb1 : c1.nbit = m1.nrow) (hnb2 : c2.nbit = m1.nrow)
    (hbits : ∀ i j : Nat, (i : Int) < m1.nrow → (j : Int) < m1.ncol →
      mbit W m1 i j = mbit W m2 i j)
    (hcbits : ∀ i : Nat, (i : Int) < m1.nrow → cbit W c1 i = cbit W c2 i)
    (hsh1 : ColumnPlacement s1 m1 c1) (hsh2 : ColumnPlacement s2 m2 c2) :
    (∀ i j : Int, 0 ≤ i → i < m1.nrow → 0 ≤ j → j < m1.ncol →
      ∃ b, _BitMatrix_get_bit W m1 i j = .ok b ∧ _BitMatrix_get_bit W m2 i j = .ok b) ∧
    (∀ i : Int, 0 ≤ i → i < m1.nrow →
      ∃ b, _BitCol_get_bit W c1 i = .ok b ∧ _BitCol_get_bit W c2 i = .ok b) ∧
    (∃ m1' m2', _BitMatrix_grow1rows_at s1 m1 c1 = .ok m1' ∧
      _BitMatrix_grow1rows_at s2 m2 c2 = .ok m2' ∧
      ∀ i j : Int, 0 ≤ i → i < m1.nrow → 0 ≤ j → j < m1.ncol →
        ∃ b, _BitMatrix_get_bit W m1' i j = .ok b ∧ _BitMatrix_get_bit W m2' i j = .ok b) ∧
    (∀ i0 j0 bit : Int, 0 ≤ i0 → i0 < m1.nrow → 0 ≤ j0 → j0 < m1.ncol →
      ∃ m1' m2', _BitMatrix_set_bit W m1 i0 j0 bit = .ok m1' ∧
        _BitMatrix_set_bit W m2 i0 j0 bit = .ok m2' ∧
        ∀ i j : Int, 0 ≤ i → i < m1.nrow → 0 ≤ j → j < m1.ncol →
          ∃ b, _BitMatrix_get_bit W m1' i j = .ok b ∧ _BitMatrix_get_bit W m2' i j = .ok b) := by
  refine ⟨?_, ?_, ?_, ?_⟩
  · intro i j hi0 hi1 hj0 hj1
    refine ⟨_, BitMatrix_get_bit_ok hW hm1 hi0 hi1 hj0 hj1, ?_⟩
    rw [BitMatrix_get_bit_ok hW hm2 hi0 (by rw [hrow]; exact hi1) hj0 (by rw [hcol]; exact hj1),
      hbits i.toNat j.toNat (by omega) (by omega)]
  · intro i hi0 hi1
    refine ⟨_, BitCol_get_bit_ok hW hc1 hi0 (by rw [hnb1]; exact hi1), ?_⟩
    rw [BitCol_get_bit_ok hW hc2 hi0 (by rw [hnb2]; exact hi1), hcbits i.toNat (by omega)]
  · obtain ⟨m1', h1, h2, h3, h4, _, h6⟩ := grow1rows_at_bits s1 hW hm1 hc1 hnb1.symm hsh1
    obtain ⟨m2', g1, g2, g3, g4, _, g6⟩ :=
      grow1rows_at_bits s2 hW hm2 hc2 (by rw [hrow, hnb2] : m2.nrow = c2.nbit) hsh2
    refine ⟨m1', m2', h1, g1, ?_⟩
    intro i j hi0 hi1 hj0 hj1
    refine ⟨_, BitMatrix_get_bit_ok hW h2 hi0 (by rw [h3]; exact hi1) hj0
      (by rw [h4]; exact hj1), ?_⟩
    rw [BitMatrix_get_bit_ok hW g2 hi0 (by rw [g3, hrow]; exact hi1) hj0
      (by rw [g4, hcol]; exact hj1),
      h6 i.toNat j.toNat (by omega) (by omega),
      g6 i.toNat j.toNat (by rw [hrow]; omega) (by rw [hcol]; omega),
      hbits i.toNat j.toNat (by omega) (by omega), hcbits i.toNat (by omega)]
    have hall : allBelow (fun t => mbit W m1 i.toNat t) j.toNat =
        allBelow (fun t => mbit W m2 i.toNat t) j.toNat := by
      apply allBelow_congr
      intro t ht
      exact hbits i.toNat t (by omega) (by omega)
    rw [hall]
  · intro i0 j0 bit hi0 hi1 hj0 hj1
    obtain ⟨m1', h1, _, _, _, _, _, h7⟩ := BitMatrix_get_after_set hW hm1 hi0 hi1 hj0 hj1 bit
    obtain ⟨m2', g1, _, _, _, _, _, g7⟩ := BitMatrix_get_after_set hW hm2 hi0
      (by rw [hrow]; exact hi1) hj0 (by rw [hcol]; exact hj1) bit
    refine ⟨m1', m2', h1, g1, ?_⟩
    intro i j hi0' hi1' hj0' hj1'
    refine ⟨_, h7 i j hi0' hi1' hj0' hj1', ?_⟩
    rw [g7 i j hi0' (by rw [hrow]; exact hi1') hj0' (by rw [hcol]; exact hj1'),
      hbits i.toNat j.toNat (by omega) (by omega)]

theorem C18_padding_independence_witness :
    ColumnPlacement false rows2_5_3 col2_first_pad ∧
    ColumnPlacement true rows2_5_3_pad (_BitMatrix_get_col rows2_5_3_pad 2) ∧
    (∀ i j : Int, 0 ≤ i → i < rows2_5_3.nrow → 0 ≤ j → j < rows2_5_3.ncol →
      ∃ b, _BitMatrix_get_bit 64 rows2_5_3 i j = .ok b ∧
        _BitMatrix_get_bit 64 rows2_5_3_pad i j = .ok b) ∧
    (∀ i : Int, 0 ≤ i → i < rows2_5_3.nrow →
      ∃ b, _BitCol_get_bit 64 col2_first_pad i = .ok b ∧
        _BitCol_get_bit 64 (_BitMatrix_get_col rows2_5_3_pad 2) i = .ok b) ∧
    (∃ m1' m2',
      _BitMatrix_grow1rows_at false rows2_5_3 col2_first_pad = .ok m1' ∧
      _BitMatrix_grow1rows_at true rows2_5_3_pad (_BitMatrix_get_col rows2_5_3_pad 2) = .ok m2' ∧
      ∀ i j : Int, 0 ≤ i → i < rows2_5_3.nrow → 0 ≤ j → j < rows2_5_3.ncol →
        ∃ b, _BitMatrix_get_bit 64 m1' i j = .ok b ∧ _BitMatrix_get_bit 64 m2' i j = .ok b) ∧
    (∀ i0 j0 bit : Int, 0 ≤ i0 → i0 < rows2_5_3.nrow → 0 ≤ j0 → j0 < rows2_5_3.ncol →
      ∃ m1' m2', _BitMatrix_set_bit 64 rows2_5_3 i0 j0 bit = .ok m1' ∧
        _BitMatrix_set_bit 64 rows2_5_3_pad i0 j0 bit = .ok m2' ∧
        ∀ i j : Int, 0 ≤ i → i < rows2_5_3.nrow → 0 ≤ j → j < rows2_5_3.ncol →
          ∃ b, _BitMatrix_get_bit 64 m1' i j = .ok b ∧ _BitMatrix_get_bit 64 m2' i j = .ok b) :=
  ⟨fun h => Bool.noConfusion h, fun _ => ⟨2, by decide, by decide, rfl⟩,
    C18_padding_independence 64 (by decide) rows2_5_3 rows2_5_3_pad
      col2_first_pad (_BitMatrix_get_col rows2_5_3_pad 2) false true
      (by decide) (by decide) (by decide) (by decide) (by decide) (by decide) (by decide)
      (by decide)
      (by
        intro i j hi hj
        have hi2 : (i : Int) < 2 := hi
        have hj3 : (j : Int) < 3 := hj
        have hi' : i < 2 := by exact_mod_cast hi2
        have hj' : j < 3 := by exact_mod_cast hj3
        interval_cases i <;> interval_cases j <;> decide)
      (by
        intro i hi
        have hi2 : (i : Int) < 2 := hi
        have hi' : i < 2 := by exact_mod_cast hi2
        interval_cases i <;> decide)
      (fun h => Bool.noConfusion h) (fun _ => ⟨2, by decide, by decide, rfl⟩)⟩

theorem setValByCol_eq (W : Nat) (val : BitWord) :
    ∀ (n : Nat) (j : Int) (m : BitMatrix),
      setValByCol W val n j m =
        (setValCols val (nwordFor W m.nrow).toNat m.nword_per_col n (j * m.nword_per_col)
          m.words).map (fun b => BitMatrix.mk b m.nword_per_col m.nrow m.ncol)
  | 0, _, _ => rfl
  | n + 1, j, m => by
    have e : (j + 1) * m.nword_per_col = j * m.nword_per_col + m.nword_per_col := by
      rw [Int.add_mul, Int.one_mul]
    simp only [setValByCol, setValCols, _BitCol_set_val, _BitMatrix_get_col, bind, Except.bind]
    cases setValLoop val (nwordFor W m.nrow).toNat (j * m.nword_per_col) m.words with
    | error err => rfl
    | ok buf' =>
      simp only [pure, Except.pure]
      rw [setValByCol_eq W val n (j + 1) _]
      simp only [e]

/-- The single-pass fill and the column-by-column fill are the same function. -/
theorem set_val_eq_by_col (W : Nat) (m : BitMatrix) (val : BitWord) :
    _BitMatrix_set_val W m val = _BitMatrix_set_val_by_col W m val := by
  unfold _BitMatrix_set_val _BitMatrix_set_val_by_col
  rw [setValByCol_eq, Int.zero_mul]
  simp only [bind, Except.bind]
  cases setValCols val (nwordFor W m.nrow).toNat m.nword_per_col m.ncol.toNat 0 m.words <;> rfl

/-- C19: for every matrix `m` and word `val`, `_BitMatrix_set_val(m, val)` has the result of
calling `_BitCol_set_val(_BitMatrix_get_col(m, j), val)` on the matrix buffer for
`j = 0 .. ncol - 1` in turn (`_BitMatrix_set_val_by_col`); on a well-formed matrix both
return, with the same matrix, every word of whose buffer is `val`. -/
theorem C19_set_val_refines_by_col (W : Nat) (m : BitMatrix) (val : BitWord) :
    _BitMatrix_set_val W m val = _BitMatrix_set_val_by_col W m val ∧
    (m.WF W →
      ∃ m', _BitMatrix_set_val W m val = .ok m' ∧ _BitMatrix_set_val_by_col W m val = .ok m' ∧
        m'.words = List.replicate m.words.length val) := by
  refine ⟨set_val_eq_by_col W m val, ?_⟩
  intro hm
  obtain ⟨buf', h1, h2, h3⟩ := BitMatrix_set_val_spec hm val
  refine ⟨_, h1, ?_, ?_⟩
  · rw [← set_val_eq_by_col]
    exact h1
  · exact eq_replicate_of_wordAt buf' _ val h2 h3

theorem C19_set_val_refines_by_col_witness :
    ∃ m', _BitMatrix_set_val 64 rows2_5_3 7 = .ok m' ∧
      _BitMatrix_set_val_by_col 64 rows2_5_3 7 = .ok m' ∧
      m'.words = List.replicate rows2_5_3.words.length 7 :=
  (C19_set_val_refines_by_col 64 rows2_5_3 7).2 (by decide)

/-- C20: for a well-formed matrix, every `i` in `[0, nrow)` and `j` in `[0, ncol)`, the word
index `j * nword_per_col + i div W` used by `_BitMatrix_get_bit` and `_BitMatrix_set_bit` is
inside the buffer and the shift amount `i mod W` is in `[0, W)`, so both return; and for
every column with `nbit = nrow` whose `nword = ceil(nbit / W)` words lie in its buffer,
every word index used by `_BitMatrix_grow1rows` (`i1 + j * nword_per_col` in the matrix,
`i1` in the column) is inside the respective buffer, and the routine returns: the
out-of-range failure is not reached. -/
theorem C20_in_bounds_access (W : Nat) (hW : 0 < W) (m : BitMatrix) (hm : m.WF W) :
    (∀ i j : Int, 0 ≤ i → i < m.nrow → 0 ≤ j → j < m.ncol →
      0 ≤ j * m.nword_per_col + Int.tdiv i W ∧
      j * m.nword_per_col + Int.tdiv i W < (m.words.length : Int) ∧
      0 ≤ Int.tmod i W ∧ Int.tmod i W < (W : Int) ∧
      (∃ b, _BitMatrix_get_bit W m i j = .ok b) ∧
      (∀ bit : Int, ∃ m', _BitMatrix_set_bit W m i j bit = .ok m')) ∧
    (∀ c : BitCol, c.nbit = m.nrow → c.nword = nwordFor W c.nbit → 0 ≤ c.words →
      c.words + c.nword ≤ (c.buf.length : Int) →
      (∀ i1 j : Int, 0 ≤ i1 → i1 < m.nword_per_col → 0 ≤ j → j < m.ncol →
        0 ≤ i1 + j * m.nword_per_col ∧ i1 + j * m.nword_per_col < (m.words.length : Int) ∧
        0 ≤ c.words + i1 ∧ c.words + i1 < (c.buf.length : Int)) ∧
      (∃ m', _BitMatrix_grow1rows m c = .ok m') ∧
      _BitMatrix_grow1rows m c ≠ .error .outOfRange) := by
  obtain ⟨nr, nc, _, _, hnr, hnc, hp, hlen⟩ := hm.nat
  constructor
  · intro i j hi0 hi1 hj0 hj1
    obtain ⟨n, rfl⟩ := Int.eq_ofNat_of_zero_le hi0
    obtain ⟨k, rfl⟩ := Int.eq_ofNat_of_zero_le hj0
    have hn : n < nr := by rw [hnr] at hi1; exact_mod_cast hi1
    have hk : k < nc := by rw [hnc] at hj1; exact_mod_cast hj1
    have hlt : n / W + k * nwordNat W nr < nc * nwordNat W nr :=
      slot_index_lt (div_lt_nwordNat W nr n hW hn) hk
    have e : (k : Int) * ((nwordNat W nr : Nat) : Int) + ((n / W : Nat) : Int) =
        ((n / W + k * nwordNat W nr : Nat) : Int) := by push_cast; omega
    rw [hp, tdiv_natCast, tmod_natCast, e, hlen]
    refine ⟨Int.ofNat_nonneg _, by exact_mod_cast hlt, Int.ofNat_nonneg _,
      by exact_mod_cast Nat.mod_lt n hW, ⟨_, BitMatrix_get_bit_ok hW hm hi0 hi1 hj0 hj1⟩, ?_⟩
    intro bit
    obtain ⟨m', h1, _⟩ := BitMatrix_get_after_set hW hm hi0 hi1 hj0 hj1 bit
    exact ⟨m', h1⟩
  · intro c hnb hnw hw0 hwl
    have hc : c.Valid W := ⟨hw0, by rw [← hnw]; exact hwl⟩
    obtain ⟨m', h1, _⟩ := grow1rows_bits hW hm hc hnb.symm
    refine ⟨?_, ⟨m', h1⟩, by rw [h1]; intro h; cases h⟩
    intro i1 j hi0 hi1 hj0 hj1
    obtain ⟨a, rfl⟩ := Int.eq_ofNat_of_zero_le hi0
    obtain ⟨k, rfl⟩ := Int.eq_ofNat_of_zero_le hj0
    have ha : a < nwordNat W nr := by rw [hp] at hi1; exact_mod_cast hi1
    have hk : k < nc := by rw [hnc] at hj1; exact_mod_cast hj1
    have hlt : a + k * nwordNat W nr < nc * nwordNat W nr := slot_index_lt ha hk
    have e : (a : Int) + (k : Int) * ((nwordNat W nr : Nat) : Int) =
        ((a + k * nwordNat W nr : Nat) : Int) := by push_cast; rfl
    rw [hnw, hnb, hnr, nwordFor_natCast] at hwl
    rw [hp, e, hlen]
    refine ⟨Int.ofNat_nonneg _, by exact_mod_cast hlt, by omega, ?_⟩
    have : (a : Int) < ((nwordNat W nr : Nat) : Int) := by exact_mod_cast ha
    omega

theorem C20_in_bounds_access_witness :
    (∃ b, _BitMatrix_get_bit 64 rows2_5_3 1 2 = .ok b) ∧
    (∃ m', _BitMatrix_set_bit 64 rows2_5_3 1 2 1 = .ok m') ∧
    (∃ m', _BitMatrix_grow1rows rows2_5_3 col2_first = .ok m') ∧
    _BitMatrix_grow1rows rows2_5_3 col2_first ≠ .error .outOfRange :=
  ⟨((C20_in_bounds_access 64 (by decide) rows2_5_3 (by decide)).1 1 2
      (by decide) (by decide) (by decide) (by decide)).2.2.2.2.1,
    ((C20_in_bounds_access 64 (by decide) rows2_5_3 (by decide)).1 1 2
      (by decide) (by decide) (by decide) (by decide)).2.2.2.2.2 1,
    ((C20_in_bounds_access 64 (by decide) rows2_5_3 (by decide)).2 col2_first
      (by decide) (by decide) (by decide) (by decide)).2.1,
    ((C20_in_bounds_access 64 (by decide) rows2_5_3 (by decide)).2 col2_first
      (by decide) (by decide) (by decide) (by decide)).2.2⟩

end BitMatrixC
